import Mathlib

set_option linter.unusedVariables false

/-!
# Verification of the walky YAML-tree walking library

This file is a shallow embedding, in Lean 4, of the core of the walky
library (walk.go and utils.go): the `yaml.Node` tree model, the `Walk`
traversal engine with its deferred breadth-first continuations, the
path-matcher layer (`KeyMatcher`, `IndexMatcher`, `NodeMatcher`,
`WalkPathMatchers`, `WalkPath`), the mutation primitives (`AssignNode`,
`AssignMapNode`), structural equality (`Equal` with the
`sortableNodeMap` ordering), map iteration (`RangeMap`), and the deep
copy (`CopyNode`, modelled over an explicit heap so that pointer
freshness can be stated).

Conventions used throughout:
* Go pointers to nodes become plain tree values; the `Alias` field
  becomes an owned `Option YNode` subtree (alias chains in the source
  are assumed acyclic, which the tree representation enforces).
* A Go runtime panic (nil-pointer dereference, index out of range) is
  modelled by an `Option`-valued result being `none`.
* Side effects of caller-supplied callbacks are modelled by having each
  callback return the list of nodes it was invoked on (its trace)
  together with an optional error; the engine concatenates traces in
  invocation order.
* A few functions whose Go termination argument is extrinsic
  (the continuation queue, `Equal` after sorting, deep copy over a
  heap) take an explicit fuel argument; callers pass a bound that is
  proven (or in pathological cases commented) to be sufficient, and
  exhausted fuel is modelled as `none`.
-/

/-! ## The node model (gopkg.in/yaml.v3 Node, as used by walky) -/

inductive YKind where
  | document | sequence | mapping | scalar | alias
deriving DecidableEq, Repr

/-- The numeric values of the yaml.Kind constants
(DocumentNode=1, SequenceNode=2, MappingNode=4, ScalarNode=8,
AliasNode=16); `sortableNodeMapLess` compares kinds numerically. -/
def kindVal : YKind → Nat
  | .document => 1
  | .sequence => 2
  | .mapping => 4
  | .scalar => 8
  | .alias => 16

/-- yaml.Node.  `aliasTarget` models the `Alias` pointer field as an
owned optional subtree; `content` models the `Content` slice.  The
remaining fields (`style`, the three comments, `line`, `column`) are
formatting metadata that the walky core carries around but, as the
spec requires, must not influence traversal or equality. -/
structure YNode where
  kind : YKind
  style : Nat
  tag : String
  value : String
  anchor : String
  aliasTarget : Option YNode
  content : List YNode
  headComment : String
  lineComment : String
  footComment : String
  line : Nat
  column : Nat
deriving Repr

mutual
/-- Size measure on nodes (1, plus the sizes of the content children
and of the alias subtree); used for fuel bounds and induction. -/
def msize : YNode → Nat
  | .mk _ _ _ _ _ al c _ _ _ _ _ => 1 + msizeOpt al + msizeList c
def msizeOpt : Option YNode → Nat
  | none => 0
  | some t => msize t
def msizeList : List YNode → Nat
  | [] => 0
  | c :: cs => msize c + msizeList cs
end

/-- UnwrapDocument (utils.go): strips a document wrapper, returning the
first child; an empty document is returned unchanged. -/
def UnwrapDocument (node : YNode) : YNode :=
  if node.kind = .document then
    match node.content with
    | [] => node
    | c :: _ => c
  else node

/-- unwrapDocument (walk.go): identical body to `UnwrapDocument`. -/
def unwrapDocument (node : YNode) : YNode := UnwrapDocument node

/-- Indirect (utils.go): follows the Alias chain until a non-alias node
is reached.  In Go an alias-kind node with a nil Alias pointer would
make the loop dereference nil; such nodes do not arise from the parser
and are excluded by the well-formedness predicate below, and here the
node is returned unchanged. -/
def Indirect : YNode → YNode
  | .mk .alias st t v a (some tgt) c hc lc fc l col => Indirect tgt
  | n => n

/-! ## The traversal engine (walk.go) -/

inductive WalkStatus where
  | exit | depthFirst | breadthFirst | prune
deriving DecidableEq, Repr

/-- WalkOptions.  The `trace` hook is omitted from the model: it is a
diagnostic observer that never affects control flow or results. -/
structure WalkOptions where
  missStatus : WalkStatus
  matchStatus : Option WalkStatus
  maxDepth : Int

/-- WalkOptions.MatchStatus(). -/
def WalkOptions.MatchStatus (o : WalkOptions) : WalkStatus :=
  o.matchStatus.getD o.missStatus

def WalkOpt : Type := WalkOptions → WalkOptions

def WithBreadthFirst : WalkOpt := fun o => { o with missStatus := .breadthFirst }

def WithFirstOnly : WalkOpt := fun o => { o with matchStatus := some .exit }

def WithMaxDepth (m : Int) : WalkOpt := fun o => { o with maxDepth := m }

/-- Result of one invocation of a visit function: the status it
returned, the trace of nodes its wrapped callback was invoked on, and
the error it returned.  A visit function yielding `none` models a Go
panic inside the visit function. -/
structure VisitRes where
  status : WalkStatus
  out : List YNode
  err : Option String

def WalkFn : Type := YNode → Option YNode → Int → WalkOptions → Option VisitRes

/-- Model of walky's NodeFunc callbacks: the trace of nodes the final
user callback was invoked on plus an optional error; `none` = panic. -/
def NodeFunc : Type := YNode → Option (List YNode × Option String)

/-- A deferred breadth-first continuation: the Go closure
`func() { return walk(subNode, subParent, f, depth+1, opts) }`
captured as data. -/
structure Deferred where
  node : YNode
  parent : Option YNode
  depth : Nat

/-- Result of walk(): returned status, deferred continuations, error,
and the concatenated visit traces (in invocation order). -/
structure WalkRes where
  status : WalkStatus
  later : List Deferred
  err : Option String
  out : List YNode

mutual

/-- walk (walk.go, lines 130-179).  `walkItems` is the loop over
`node.Content`; for mapping nodes the loop consumes two entries per
step, visiting the key and descending into the value with the key as
`subParent`.  A mapping node with odd Content length makes the Go code
index out of range (modelled `none`). -/
def walk (f : WalkFn) (opts : WalkOptions)
    (node : YNode) (parent : Option YNode) (depth : Nat) : Option WalkRes :=
  if opts.maxDepth ≥ 0 ∧ (depth : Int) > opts.maxDepth then
    some ⟨.prune, [], none, []⟩
  else
    match node with
    | .mk _ _ _ _ _ _ c _ _ _ _ _ =>
      walkItems f opts node parent depth c 0 [] []

def walkItems (f : WalkFn) (opts : WalkOptions)
    (node : YNode) (parent : Option YNode) (depth : Nat) :
    List YNode → Int → List Deferred → List YNode → Option WalkRes
  | [], _, acc, outAcc => some ⟨.depthFirst, acc, none, outAcc⟩
  | cur :: rest, i, acc, outAcc =>
    match f cur (some node) i opts with
    | none => none
    | some ⟨ws, out, some e⟩ => some ⟨ws, [], some e, outAcc ++ out⟩
    | some ⟨ws, out, none⟩ =>
      if node.kind = .mapping then
        match rest with
        | [] => none
        | v :: rest2 =>
          match ws with
          | .exit => some ⟨.exit, [], none, outAcc ++ out⟩
          | .depthFirst =>
            match walk f opts v (some cur) (depth + 1) with
            | none => none
            | some r =>
              match r.err with
              | some e => some ⟨r.status, [], some e, outAcc ++ out ++ r.out⟩
              | none =>
                match r.status with
                | .exit => some ⟨.exit, [], none, outAcc ++ out ++ r.out⟩
                | .prune =>
                  walkItems f opts node parent depth rest2 (i + 2) acc (outAcc ++ out ++ r.out)
                | _ =>
                  walkItems f opts node parent depth rest2 (i + 2) (acc ++ r.later) (outAcc ++ out ++ r.out)
          | .breadthFirst =>
            walkItems f opts node parent depth rest2 (i + 2) (acc ++ [⟨v, some cur, depth + 1⟩]) (outAcc ++ out)
          | .prune => some ⟨.depthFirst, acc, none, outAcc ++ out⟩
      else
        match ws with
        | .exit => some ⟨.exit, [], none, outAcc ++ out⟩
        | .depthFirst =>
          match walk f opts cur parent (depth + 1) with
          | none => none
          | some r =>
            match r.err with
            | some e => some ⟨r.status, [], some e, outAcc ++ out ++ r.out⟩
            | none =>
              match r.status with
              | .exit => some ⟨.exit, [], none, outAcc ++ out ++ r.out⟩
              | .prune =>
                walkItems f opts node parent depth rest (i + 1) acc (outAcc ++ out ++ r.out)
              | _ =>
                walkItems f opts node parent depth rest (i + 1) (acc ++ r.later) (outAcc ++ out ++ r.out)
        | .breadthFirst =>
          walkItems f opts node parent depth rest (i + 1) (acc ++ [⟨cur, parent, depth + 1⟩]) (outAcc ++ out)
        | .prune => some ⟨.depthFirst, acc, none, outAcc ++ out⟩

end

/-- Total size of the nodes held by a continuation queue. -/
def dsize (q : List Deferred) : Nat := (q.map (fun d => msize d.node)).sum

/-- The deferred-continuation loop of Walk (walk.go, lines 112-124).
Go iterates the `later` slice by index, appending newly produced
continuations at the end, i.e. FIFO processing.  The fuel argument is a
termination artifact: each iteration strictly decreases the total size
of the queued subtrees, and `Walk` passes the proven-sufficient bound
`dsize queue + 1`.  Note the source returns `nil` when a continuation
reports an error (the error is swallowed). -/
def runLater (f : WalkFn) (opts : WalkOptions) :
    Nat → List Deferred → List YNode → Option (List YNode × Option String)
  | _, [], acc => some (acc, none)
  | 0, _ :: _, _ => none
  | fuel + 1, d :: rest, acc =>
    match walk f opts d.node d.parent d.depth with
    | none => none
    | some r =>
      match r.err with
      | some _ => some (acc ++ r.out, none)
      | none =>
        match r.status with
        | .exit => some (acc ++ r.out, none)
        | .prune => runLater f opts fuel rest (acc ++ r.out)
        | _ => runLater f opts fuel (rest ++ r.later) (acc ++ r.out)

/-- Walk (walk.go, lines 77-126).  Returns the concatenated trace of
callback invocations plus the error Walk returns.  Faithful to the
source: the error from the root visit is returned, but errors arising
in the primary `walk` pass or in a deferred continuation are replaced
by `nil` (`return nil` on lines 103 and 115). -/
def Walk (node : YNode) (f : WalkFn) (walkOpts : List WalkOpt) :
    Option (List YNode × Option String) :=
  let opts := walkOpts.foldl (fun o g => g o) ⟨.depthFirst, none, -1⟩
  let node1 := unwrapDocument node
  match f node1 none (-1) opts with
  | none => none
  | some ⟨ws, out, some e⟩ => some (out, some e)
  | some ⟨ws, out, none⟩ =>
    match ws with
    | .exit => some (out, none)
    | .prune => some (out, none)
    | _ =>
      match walk f opts node1 none 0 with
      | none => none
      | some r =>
        match r.err with
        | some _ => some (out ++ r.out, none)
        | none =>
          match r.status with
          | .exit => some (out ++ r.out, none)
          | .prune => some (out ++ r.out, none)
          | _ => runLater f opts (dsize r.later + 1) r.later (out ++ r.out)

/-! ## Walker adapters and path matchers (walk.go) -/

/-- ScalarValuesWalker (walk.go, lines 181-189).  The wrapped callback
is modelled by `g`, returning its trace and error (`none` = it
panicked).  The Go guard is
`current.Kind != yaml.ScalarNode || parent.Kind == yaml.MappingNode`:
`||` short-circuits, so `parent.Kind` is only read when `current` is a
scalar; reading it with `parent = nil` is a nil dereference, modelled
by the `none` result. -/
def ScalarValuesWalker (g : NodeFunc) : WalkFn :=
  fun current parent _pos opts =>
    if current.kind ≠ .scalar then some ⟨opts.missStatus, [], none⟩
    else
      match parent with
      | none => none
      | some p =>
        if p.kind = .mapping then some ⟨opts.missStatus, [], none⟩
        else
          match g current with
          | none => none
          | some (tr, err) => some ⟨opts.MatchStatus, tr, err⟩

/-- Fetches l[i] for a Go int index; negative or out-of-range access
panics in Go, modelled as `none`. -/
def listGetInt (l : List YNode) (i : Int) : Option YNode :=
  if i < 0 then none else l[i.toNat]?

/-- KeyStringWalker (walk.go, lines 201-212). -/
def KeyStringWalker (key : String) (f : NodeFunc) : WalkFn :=
  fun current parent pos opts =>
    match parent with
    | none => some ⟨opts.missStatus, [], none⟩
    | some p =>
      if p.kind ≠ .mapping then some ⟨opts.missStatus, [], none⟩
      else if current.value ≠ key then some ⟨opts.missStatus, [], none⟩
      else
        match listGetInt p.content (pos + 1) with
        | none => none
        | some v =>
          match f v with
          | none => none
          | some (tr, err) => some ⟨opts.MatchStatus, tr, err⟩

/-- IndexWalker (walk.go, lines 214-228). -/
def IndexWalker (ix : Int) (f : NodeFunc) : WalkFn :=
  fun current parent pos opts =>
    match parent with
    | none => some ⟨opts.missStatus, [], none⟩
    | some p =>
      if p.kind ≠ .sequence then some ⟨opts.missStatus, [], none⟩
      else if ix > pos then some ⟨.breadthFirst, [], none⟩
      else if ix < pos then some ⟨.prune, [], none⟩
      else
        match f current with
        | none => none
        | some (tr, err) => some ⟨opts.MatchStatus, tr, err⟩

/-! ## Structural equality (utils.go) -/

/-- Go's `<` on strings, byte-lexicographic.  Comparing Unicode code
points gives the same order as comparing UTF-8 bytes (UTF-8 preserves
lexicographic order), so comparing the characters' code points is
faithful. -/
def charsLtB : List Char → List Char → Bool
  | [], [] => false
  | [], _ :: _ => true
  | _ :: _, [] => false
  | a :: as2, b :: bs2 =>
    if a.toNat < b.toNat then true
    else if b.toNat < a.toNat then false
    else charsLtB as2 bs2

def strLtB (a b : String) : Bool := charsLtB a.data b.data

/-- sortableNodeMap.Less (utils.go, lines 145-160), lifted to the
key/value pairs that Len/Swap treat as sort units: compares the keys
by kind, then tag, then content length, then value. -/
def sortableNodeMapLess (p q : YNode × YNode) : Bool :=
  let a := p.1
  let b := q.1
  if a.kind ≠ b.kind then kindVal a.kind < kindVal b.kind
  else if a.tag ≠ b.tag then strLtB a.tag b.tag
  else if a.content.length ≠ b.content.length then a.content.length < b.content.length
  else strLtB a.value b.value

/-- Insert a pair into an already-sorted pair list, before the first
strictly greater element.  Together with `sortPairs` this is a stable
sort by `sortableNodeMapLess`.  Go's sort.Sort is an unstable pdqsort,
but for slices of at most 12 sort units it runs plain insertion sort
(stable in effect for the comparisons it makes), and whenever the keys
are strictly ordered (no two Less-equivalent keys) every sort
respecting Less produces the same unique output, so the model agrees
with the source on all inputs considered in this file. -/
def sortPairsInsert (p : YNode × YNode) : List (YNode × YNode) → List (YNode × YNode)
  | [] => [p]
  | q :: qs => if sortableNodeMapLess p q then p :: q :: qs else q :: sortPairsInsert p qs

def sortPairs (l : List (YNode × YNode)) : List (YNode × YNode) :=
  l.foldl (fun acc p => sortPairsInsert p acc) []

/-- Chunk a mapping's flat Content into key/value pairs (Len = len/2 in
the source; a trailing element of an odd-length slice is not part of
any sort unit). -/
def toPairs : List YNode → List (YNode × YNode)
  | k :: v :: rest => (k, v) :: toPairs rest
  | _ => []

/-- The trailing element of an odd-length mapping Content (untouched by
the pair-based sort). -/
def oddTail : List YNode → List YNode
  | _ :: _ :: rest => oddTail rest
  | rest => rest

def flattenPairs : List (YNode × YNode) → List YNode
  | [] => []
  | (k, v) :: rest => k :: v :: flattenPairs rest

/-- The sorted copy of a mapping's Content produced by
`sort.Sort(sortableNodeMap(aContent))` in Equal. -/
def sortContent (l : List YNode) : List YNode :=
  flattenPairs (sortPairs (toPairs l)) ++ oddTail l

/-- Pointwise conjunction of a node comparison over two lists (the
index loops at the end of Equal); false on a length mismatch (cannot
arise there: lengths are checked first). -/
def allZip (p : YNode → YNode → Bool) : List YNode → List YNode → Bool
  | [], [] => true
  | x :: xs, y :: ys => p x y && allZip p xs ys
  | _, _ => false

/-- Equal (utils.go, lines 162-200) with a fuel argument.  Recursion in
the source descends into children of the `Indirect`-resolved nodes
after sorting, so plain structural recursion is unavailable; the
wrapper `Equal` passes the proven-sufficient bound `msize a` (each
recursive call strictly decreases the size of the left argument).
The source's leading nil checks disappear: nodes here are values. -/
def EqualF : Nat → YNode → YNode → Bool
  | 0, _, _ => false
  | fuel + 1, a0, b0 =>
    let a := Indirect a0
    let b := Indirect b0
    if a.kind ≠ b.kind then false
    else if a.tag ≠ b.tag then false
    else if a.value ≠ b.value then false
    else if a.content.length ≠ b.content.length then false
    else if a.kind = .mapping then
      allZip (EqualF fuel) (sortContent a.content) (sortContent b.content)
    else
      allZip (EqualF fuel) a.content b.content

def Equal (a b : YNode) : Bool := EqualF (msize a) a b

/-! ## Mutation primitives (utils.go) -/

/-- AssignNode (utils.go, lines 204-211): copies Alias, Anchor,
Content, Kind, Tag and Value from `srcNode` into `destNode`, leaving
the comment and position metadata of `destNode` untouched. -/
def AssignNode (destNode srcNode : YNode) : YNode :=
  { destNode with
    aliasTarget := srcNode.aliasTarget
    anchor := srcNode.anchor
    content := srcNode.content
    kind := srcNode.kind
    tag := srcNode.tag
    value := srcNode.value }

/-- One level of the in-place-mutating traversal performed by
`WalkPath(mapNode, fn, keyNode)` inside AssignMapNode, parameterised
by the recursive descent `go`; see `awNode`.  Walks one Content list:
for a mapping parent the loop visits the key (assigning `v` onto it
when it matches) and descends into the value; otherwise it visits each
child and then descends into the possibly-just-overwritten child.  An
odd-length mapping Content panics in Go on `Content[i+1]` (`none`). -/
def awItemsGo (pm v : YNode) (go : YNode → Option (YNode × Bool)) (parentKind : YKind) :
    List YNode → Option (List YNode × Bool)
  | [] => some ([], false)
  | cur :: rest =>
    let found1 := Equal pm cur
    let cur1 := if found1 then AssignNode cur v else cur
    if parentKind = .mapping then
      match rest with
      | [] => none
      | val :: rest2 =>
        match go val with
        | none => none
        | some (val2, found2) =>
          match awItemsGo pm v go parentKind rest2 with
          | none => none
          | some (rest3, found3) => some (cur1 :: val2 :: rest3, found1 || found2 || found3)
    else
      match go cur1 with
      | none => none
      | some (cur2, found2) =>
        match awItemsGo pm v go parentKind rest with
        | none => none
        | some (rest3, found3) => some (cur2 :: rest3, found1 || found2 || found3)

/-- The in-place-mutating traversal performed by
`WalkPath(mapNode, fn, keyNode)` inside AssignMapNode: WalkPath turns
the `*yaml.Node` segment into `NodeMatcher(keyNode)`, whose Match
(walk.go, lines 253-261) runs a full-depth `Walk` with default options
visiting every node and calling `fn(current)` on each node `current`
with `Equal(keyNode, current)`; AssignMapNode's fn runs
`AssignNode(current, valNode)` and records that a match was found.
Since the options are the defaults, every visit returns
`WalkDepthFirst` and the engine's Exit/Prune/deferred branches are
unreachable, leaving the plain recursion rendered here with the
mutated tree threaded through.  `awNode pm v fuel n` walks the
children of `n`.  The fuel is a termination artifact: assigning `v`
onto a matched node grafts `v`'s own subtree into the traversal, which
in pathological cases (a node inside `v` again equal to `pm`) makes
the Go recursion unbounded; exhausted fuel is `none`. -/
def awNode (pm v : YNode) : Nat → YNode → Option (YNode × Bool)
  | 0, _ => none
  | fuel + 1, n =>
    match awItemsGo pm v (awNode pm v fuel) n.kind n.content with
    | none => none
    | some (c', found) => some ({ n with content := c' }, found)

/-- The insertion scan of AssignMapNode (utils.go, lines 233-241):
for a scalar key, the first even index whose key Value exceeds the new
key's Value; otherwise (or when no key exceeds it) the end of Content.
`idx` tracks the absolute index of the head of the remaining list. -/
def findInsertAtFrom (keyNode : YNode) : Nat → List YNode → Option Nat
  | _, [] => none
  | idx, k :: rest =>
    if strLtB keyNode.value k.value then some idx
    else
      match rest with
      | [] => none
      | _ :: rest2 => findInsertAtFrom keyNode (idx + 2) rest2

def findInsertAt (keyNode : YNode) (content : List YNode) : Nat :=
  if keyNode.kind = .scalar then
    (findInsertAtFrom keyNode 0 content).getD content.length
  else content.length

/-- AssignMapNode (utils.go, lines 213-244).  Returns the final state
of the (unwrapped) map node, or the error the source returns; `none`
models a Go panic or unbounded recursion (see `awNode`).  The root
visit of the inner Walk sees the map node itself (parent nil,
position -1) before `walk` iterates its children. -/
def AssignMapNode (mapNode keyNode valNode : YNode) : Option (Except String YNode) :=
  let m := UnwrapDocument mapNode
  if m.kind ≠ .mapping then some (.error ("AssignMapNode called on invalid type: " ++ m.tag))
  else
    let rootFound := Equal keyNode m
    let m1 := if rootFound then AssignNode m valNode else m
    match awNode keyNode valNode (msize m1 + msize valNode + 1) m1 with
    | none => none
    | some (m2, found2) =>
      if rootFound || found2 then some (.ok m2)
      else
        let insertAt := findInsertAt keyNode m2.content
        some (.ok { m2 with content := m2.content.take insertAt ++ [keyNode, valNode] ++ m2.content.drop insertAt })

/-! ## Path matchers and WalkPath (walk.go) -/

/-- keyPathMatcher.Match (walk.go, lines 240-245): a non-mapping node
is a silent success-no-op; otherwise an immediate-children-only Walk
with KeyStringWalker. -/
def keyPathMatcherMatch (pm : String) (node : YNode) (fn : NodeFunc) :
    Option (List YNode × Option String) :=
  if node.kind ≠ .mapping then some ([], none)
  else Walk node (KeyStringWalker pm fn) [WithMaxDepth 0]

/-- The anonymous visit function inside nodePathMatcher.Match
(walk.go, lines 253-261). -/
def nodePathMatcherWalkFn (pm : YNode) (fn : NodeFunc) : WalkFn :=
  fun current _parent _pos opts =>
    if ¬ Equal pm current then some ⟨opts.missStatus, [], none⟩
    else
      match fn current with
      | none => none
      | some (tr, err) => some ⟨opts.MatchStatus, tr, err⟩

/-- nodePathMatcher.Match (walk.go, lines 253-261): a full-depth Walk
with default options. -/
def nodePathMatcherMatch (pm : YNode) (node : YNode) (fn : NodeFunc) :
    Option (List YNode × Option String) :=
  Walk node (nodePathMatcherWalkFn pm fn) []

/-- indexPathMatcher.Match (walk.go, lines 269-274): a non-sequence
node is a silent success-no-op; otherwise an immediate-children-only
Walk with IndexWalker. -/
def indexPathMatcherMatch (pm : Int) (node : YNode) (fn : NodeFunc) :
    Option (List YNode × Option String) :=
  if node.kind ≠ .sequence then some ([], none)
  else Walk node (IndexWalker pm fn) [WithMaxDepth 0]

/-- The PathMatcher variants WalkPath can construct (KeyMatcher,
IndexMatcher, NodeMatcher; walk.go lines 234, 247, 263). -/
inductive PathMatcher where
  | key (s : String)
  | idx (i : Int)
  | nodeRef (n : YNode)

def PathMatcherMatch : PathMatcher → YNode → NodeFunc → Option (List YNode × Option String)
  | .key s, node, fn => keyPathMatcherMatch s node fn
  | .idx i, node, fn => indexPathMatcherMatch i node fn
  | .nodeRef n, node, fn => nodePathMatcherMatch n node fn

/-- WalkPathMatchers (walk.go, lines 298-307): right-to-left
composition; matcher i's continuation is matcher i+1's Match, the last
continuation being `fn`; the composite is applied to the unwrapped
root. -/
def WalkPathMatchers (root : YNode) (fn : NodeFunc) (matchers : List PathMatcher) :
    Option (List YNode × Option String) :=
  (matchers.foldr (fun m acc => fun node => PathMatcherMatch m node acc) fn)
    (unwrapDocument root)

/-- A path segment handed to WalkPath.  Go accepts `interface{}`;
`str`, `int` and `node` are the supported dynamic types, and `other`
stands for any different dynamic type, carrying the renderings of `%T`
(the type) and `%v` (the value) used by the error message. -/
inductive PathSeg where
  | str (s : String)
  | int (i : Int)
  | node (n : YNode)
  | other (typeName : String) (valueRepr : String)

/-- The matcher-construction loop of WalkPath (walk.go, lines
309-324): translates segments in order; the first segment of an
unsupported type aborts with the configuration error, without running
any matcher. -/
def buildMatchers : List PathSeg → Except String (List PathMatcher)
  | [] => .ok []
  | .str s :: rest => (buildMatchers rest).map (fun ms => .key s :: ms)
  | .int i :: rest => (buildMatchers rest).map (fun ms => .idx i :: ms)
  | .node n :: rest => (buildMatchers rest).map (fun ms => .nodeRef n :: ms)
  | .other t v :: _ => .error ("Unable to make PathMatcher from type " ++ t ++ " (" ++ v ++ ")")

def WalkPath (root : YNode) (fn : NodeFunc) (path : List PathSeg) :
    Option (List YNode × Option String) :=
  match buildMatchers path with
  | .error e => some ([], some e)
  | .ok ms => WalkPathMatchers root fn ms

/-! ## Map iteration (utils.go) -/

/-- KindString (utils.go, lines 83-97). -/
def KindString : YKind → String
  | .document => "document"
  | .sequence => "sequence"
  | .mapping => "mapping"
  | .scalar => "scalar"
  | .alias => "alias"

/-- RangerFunc: called per key/value pair; the Bool return stops the
iteration without error when false. -/
def RangerFunc : Type := YNode → YNode → Bool × Option String

/-- The iteration loop of RangeMap over the chunked pairs; returns the
trace of pairs passed to `f` plus the error RangeMap returns. -/
def rangeMapLoop (f : RangerFunc) : List (YNode × YNode) →
    List (YNode × YNode) × Option String
  | [] => ([], none)
  | (k, v) :: rest =>
    match f k v with
    | (_, some e) => ([(k, v)], some e)
    | (false, none) => ([(k, v)], none)
    | (true, none) =>
      let (tr, e) := rangeMapLoop f rest
      ((k, v) :: tr, e)

/-- RangeMap (utils.go, lines 408-428): alias-indirects the node,
errors unless it is a mapping with even Content length, then passes
each key/value pair to `f` in order. -/
def RangeMap (node : YNode) (f : RangerFunc) :
    List (YNode × YNode) × Option String :=
  let n := Indirect node
  if n.kind ≠ .mapping then
    ([], some ("expected node kind " ++ KindString .mapping ++ ", got " ++ KindString n.kind))
  else if n.content.length % 2 ≠ 0 then
    ([], some ("unexpected node content length " ++ toString n.content.length ++ ", must be even"))
  else rangeMapLoop f (toPairs n.content)

/-! ## Deep copy over an explicit heap (utils.go CopyNode)

CopyNode's contract is about pointer identity (the copy must not share
any owned child with the original), so it is modelled over an explicit
heap: nodes live at addresses (indices into a list), `content` and the
alias pointer hold addresses, and allocation appends.  `copyNodeH`
follows copyNode (utils.go, lines 344-361): memo lookup first, then
`cp := *src`, then the alias is copied, then each content child, then
`cp` is allocated and recorded in the memo. -/

structure HNode where
  kind : YKind
  style : Nat
  tag : String
  value : String
  anchor : String
  aliasAddr : Option Nat
  content : List Nat
  headComment : String
  lineComment : String
  footComment : String
  line : Nat
  column : Nat
deriving Repr, DecidableEq

instance : Inhabited HNode :=
  ⟨⟨.scalar, 0, "", "", "", none, [], "", "", "", 0, 0⟩⟩

def heapEdges (h : HNode) : List Nat :=
  h.content ++ (match h.aliasAddr with | some a => [a] | none => [])

def memoFind (memo : List (Nat × Nat)) (a : Nat) : Option Nat :=
  (memo.find? (fun p => p.1 = a)).map Prod.snd

/-- Sequences a copy step `go` over a list of child addresses,
threading the heap and the memo left to right (the Content loop of
copyNode). -/
def copyListGo
    (go : List (Nat × Nat) → List HNode → Nat → Option (Nat × List HNode × List (Nat × Nat))) :
    List (Nat × Nat) → List HNode → List Nat →
    Option (List Nat × List HNode × List (Nat × Nat))
  | memo, H, [] => some ([], H, memo)
  | memo, H, a :: rest =>
    match go memo H a with
    | none => none
    | some (c, H2, memo2) =>
      match copyListGo go memo2 H2 rest with
      | none => none
      | some (cs, H3, memo3) => some (c :: cs, H3, memo3)

/-- copyNode (utils.go, lines 344-361) over the heap.  Returns the
address of the copy, the extended heap and the extended memo.  The
fuel bounds the depth of the recursion; `CopyNode` passes `H.length
+ 1`, sufficient for every acyclic heap (Go would loop forever on a
cyclic alias chain, which the spec declares unsupported).  A dangling
address is `none` (cannot arise from a closed heap). -/
def copyNodeH : Nat → List (Nat × Nat) → List HNode → Nat →
    Option (Nat × List HNode × List (Nat × Nat))
  | 0, _, _, _ => none
  | fuel + 1, memo, H, src =>
    match memoFind memo src with
    | some c => some (c, H, memo)
    | none =>
      match H[src]? with
      | none => none
      | some sn =>
        match (match sn.aliasAddr with
               | none => some (none, H, memo)
               | some a =>
                 match copyNodeH fuel memo H a with
                 | none => none
                 | some (a2, H2, memo2) => some (some a2, H2, memo2)) with
        | none => none
        | some (al2, H2, memo2) =>
          match copyListGo (copyNodeH fuel) memo2 H2 sn.content with
          | none => none
          | some (cs2, H3, memo3) =>
            some (H3.length, H3 ++ [{ sn with aliasAddr := al2, content := cs2 }],
                  (src, H3.length) :: memo3)

/-- CopyNode (utils.go, lines 336-339): copy with an empty memo. -/
def CopyNode (H : List HNode) (src : Nat) :
    Option (Nat × List HNode × List (Nat × Nat)) :=
  copyNodeH (H.length + 1) [] H src

/-- Reads a list of subtrees out of the heap via `go`. -/
def treeListGo (go : Nat → Option YNode) : List Nat → Option (List YNode)
  | [] => some []
  | a :: rest =>
    match go a with
    | none => none
    | some t =>
      match treeListGo go rest with
      | none => none
      | some ts => some (t :: ts)

/-- Reads the tree rooted at address `a` out of the heap (unfolding
shared nodes); used to compare the copy against the original with
`Equal`.  Fuel-bounded for the same reason as `copyNodeH`. -/
def treeAt : Nat → List HNode → Nat → Option YNode
  | 0, _, _ => none
  | fuel + 1, H, a =>
    match H[a]? with
    | none => none
    | some hn =>
      match (match hn.aliasAddr with
             | none => some none
             | some t =>
               match treeAt fuel H t with
               | none => none
               | some tt => some (some tt)) with
      | none => none
      | some al =>
        match treeListGo (treeAt fuel H) hn.content with
        | none => none
        | some cs =>
          some ⟨hn.kind, hn.style, hn.tag, hn.value, hn.anchor, al, cs,
                hn.headComment, hn.lineComment, hn.footComment, hn.line, hn.column⟩

/-- All edges of the heap stay inside it (no dangling references). -/
def ClosedHeapB (H : List HNode) : Bool :=
  H.all (fun h => (heapEdges h).all (fun e => e < H.length))

/-- Acyclicity of the heap graph, witnessed by a rank function that
strictly decreases along every edge and is bounded by the heap size
(for a finite acyclic graph the longest-path rank always qualifies). -/
def RankedHeap (H : List HNode) (rank : Nat → Nat) : Prop :=
  ∀ i, i < H.length →
    rank i < H.length ∧ ∀ e ∈ heapEdges (H.getD i default), rank e < rank i

def AcyclicHeap (H : List HNode) : Prop := ∃ rank, RankedHeap H rank

def ownedListGo (go : Nat → List Nat) : List Nat → List Nat
  | [] => []
  | a :: rest => go a ++ ownedListGo go rest

/-- Addresses owned by the subtree at `a` through Content edges only
(the claim about CopyNode concerns owned children; the alias field is
a non-owning back-reference). -/
def ownedAddrs : Nat → List HNode → Nat → List Nat
  | 0, _, a => [a]
  | fuel + 1, H, a =>
    a :: (match H[a]? with
          | none => []
          | some hn => ownedListGo (ownedAddrs fuel H) hn.content)

/-! ## Specification-side descriptions of the scalar-values traversal

These definitions restate, directly over the tree, which nodes the
walk engine's ScalarValuesWalker traversal reaches and in which order;
the theorems for the breadth-first claims relate `Walk` runs to them. -/

mutual
/-- Well-formed document trees per the spec's data model: mapping
Content has even length, scalars and aliases have no children, and
document wrappers occur only at the root (the tree below an unwrapped
root contains none). -/
def wfB : YNode → Bool
  | .mk k _ _ _ _ _ c _ _ _ _ _ =>
    (k ≠ YKind.document : Bool) &&
    ((k ≠ YKind.mapping : Bool) || c.length % 2 = 0) &&
    (((k ≠ YKind.scalar : Bool) && (k ≠ YKind.alias : Bool)) || c.isEmpty) &&
    wfListB c
def wfListB : List YNode → Bool
  | [] => true
  | c :: cs => wfB c && wfListB cs
end

/-- The value nodes of a mapping's flat Content (the entries the walk
engine descends into; keys are visited but never descended into). -/
def mapValues : List YNode → List YNode
  | _ :: v :: rest => v :: mapValues rest
  | _ => []

/-- The scalars collected while the engine iterates the children of
`n`: none when `n` is a mapping (only keys are visited there, and the
walker skips scalars whose parent is a mapping), otherwise the scalar
children in order. -/
def row (n : YNode) : List YNode :=
  if n.kind = .mapping then [] else n.content.filter (fun c => c.kind = .scalar)

/-- The nodes the engine walks next from `n`: the mapping values, or
all children otherwise. -/
def childrenForWalk (n : YNode) : List YNode :=
  if n.kind = .mapping then mapValues n.content else n.content

mutual
def heightW : YNode → Nat
  | .mk _ _ _ _ _ _ c _ _ _ _ _ => 1 + heightListW c
def heightListW : List YNode → Nat
  | [] => 0
  | c :: cs => max (heightW c) (heightListW cs)
end

/-- The scalars the traversal collects exactly `d` levels below the
children of `n`, left to right: depth 0 is `row n`, and depth d+1
aggregates depth d over the nodes walked next.  For a well-formed
tree this lists, in document order, precisely the scalar
sequence-elements at structural depth d+1 below `n`. -/
def rowsAt : Nat → YNode → List YNode
  | 0, n => row n
  | d + 1, n => ((childrenForWalk n).map (rowsAt d)).flatten

mutual
/-- The trace of the default (depth-first) ScalarValuesWalker
traversal below `n`, in engine order: for a mapping, recurse into each
value; otherwise each scalar child is collected just before its
subtree is walked. -/
def dfsSpec : YNode → List YNode
  | .mk k _ _ _ _ _ c _ _ _ _ _ =>
    if k = .mapping then dfsSpecPairs c else dfsSpecChildren c
def dfsSpecPairs : List YNode → List YNode
  | _ :: v :: rest => dfsSpec v ++ dfsSpecPairs rest
  | _ => []
def dfsSpecChildren : List YNode → List YNode
  | [] => []
  | c :: rest => (if c.kind = .scalar then [c] else []) ++ dfsSpec c ++ dfsSpecChildren rest
end

/-- FIFO processing of a queue of pending subtrees: collect the head's
row, enqueue what it walks next, recurse.  This is the shape of Walk's
deferred-continuation loop under WithBreadthFirst. -/
def bfsAux : List YNode → List YNode
  | [] => []
  | n :: rest => row n ++ bfsAux (rest ++ childrenForWalk n)
termination_by l => msizeList l
decreasing_by
  have happ : ∀ l1 l2 : List YNode, msizeList (l1 ++ l2) = msizeList l1 + msizeList l2 := by
    intro l1 l2
    induction l1 with
    | nil => simp [msizeList]
    | cons x xs ih => simp [msizeList, ih, Nat.add_assoc]
  have hmv : ∀ (k : Nat) (l : List YNode), l.length ≤ k →
      msizeList (mapValues l) ≤ msizeList l := by
    intro k
    induction k with
    | zero =>
      intro l h
      cases l with
      | nil => simp [mapValues, msizeList]
      | cons a b => simp at h
    | succ k ih =>
      intro l h
      cases l with
      | nil => simp [mapValues, msizeList]
      | cons a l2 =>
        cases l2 with
        | nil => simp [mapValues, msizeList]
        | cons b rest =>
          have hr := ih rest (by simp at h; omega)
          simp only [mapValues, msizeList]
          omega
  have key : ∀ (m : YNode) (rest : List YNode),
      msizeList (rest ++ childrenForWalk m) < msizeList (m :: rest) := by
    intro m rest
    have hcw : msizeList (childrenForWalk m) < msize m := by
      cases m with
      | mk k st tg v a al c hc lc fc l col =>
        by_cases hk : k = .mapping
        · have hle := hmv c.length c le_rfl
          simp only [childrenForWalk, hk, msize, if_true]
          omega
        · have hne : msizeList (childrenForWalk (YNode.mk k st tg v a al c hc lc fc l col)) = msizeList c := by
            simp [childrenForWalk, hk]
          simp only [hne, msize]
          omega
    have h2 := happ rest (childrenForWalk m)
    simp only [msizeList] at *
    omega
  exact key _ _

mutual
/-- Deep equality up to formatting metadata: same kind, tag, value,
anchor, alias structure and children, with style, comments, line and
column free to differ anywhere in the tree.  Used to state that
`Equal` never reads formatting metadata. -/
def metaEqB : YNode → YNode → Bool
  | .mk k1 _ t1 v1 an1 al1 c1 _ _ _ _ _, .mk k2 _ t2 v2 an2 al2 c2 _ _ _ _ _ =>
    (k1 = k2 : Bool) && (t1 = t2 : Bool) && (v1 = v2 : Bool) && (an1 = an2 : Bool) &&
    metaEqOptB al1 al2 && metaEqListB c1 c2
def metaEqOptB : Option YNode → Option YNode → Bool
  | none, none => true
  | some a, some b => metaEqB a b
  | _, _ => false
def metaEqListB : List YNode → List YNode → Bool
  | [], [] => true
  | a :: as2, b :: bs2 => metaEqB a b && metaEqListB as2 bs2
  | _, _ => false
end

/-- The first unsupported segment of a WalkPath path, rendered as the
configuration error WalkPath reports for it. -/
def firstOtherMsg : List PathSeg → Option String
  | [] => none
  | .other t v :: _ =>
    some ("Unable to make PathMatcher from type " ++ t ++ " (" ++ v ++ ")")
  | _ :: rest => firstOtherMsg rest

/-! ## Concrete nodes used by counterexamples and witnesses -/

def scalarN (v : String) : YNode :=
  ⟨.scalar, 0, "!!str", v, "", none, [], "", "", "", 0, 0⟩

def seqN (c : List YNode) : YNode :=
  ⟨.sequence, 0, "!!seq", "", "", none, c, "", "", "", 0, 0⟩

def mapN (c : List YNode) : YNode :=
  ⟨.mapping, 0, "!!map", "", "", none, c, "", "", "", 0, 0⟩

def defaultWalkOptions : WalkOptions := ⟨.depthFirst, none, -1⟩

/-- A pure collecting callback: records the node, no error. -/
def collectNode : NodeFunc := fun n => some ([n], none)

/-- A callback that records the node and fails. -/
def errAllFn : NodeFunc := fun n => some ([n], some "visit failed")

/-- [ "1" ] : a visit error arises during the primary depth-first
pass. -/
def c1Root : YNode := seqN [scalarN "1"]

/-- [ [ "1" ] ] : under WithBreadthFirst the inner sequence is
deferred, so the visit error arises inside a deferred
continuation. -/
def c1RootB : YNode := seqN [seqN [scalarN "1"]]

/-- { a : "x" } : a mapping whose value is a scalar leaf. -/
def c2Map : YNode := mapN [scalarN "a", scalarN "x"]

/-- [ [ "2" ], "1" ] : depth-first collects "2" before "1";
breadth-first collects "1" before "2". -/
def c2Tree : YNode := seqN [seqN [scalarN "2"], scalarN "1"]

def c3Map : YNode := mapN [scalarN "b", scalarN "1"]
def c3Key : YNode := scalarN "b"
def c3Val : YNode := scalarN "x"

/-- The mapping a merge key refers to. -/
def c4Target : YNode := mapN [scalarN "x", scalarN "1"]

/-- A merge key: Tag is the reserved merge marker. -/
def c4MergeKey : YNode :=
  ⟨.scalar, 0, "!!merge", "<<", "", none, [], "", "", "", 0, 0⟩

/-- An alias node referencing `c4Target`. -/
def c4AliasVal : YNode :=
  ⟨.alias, 0, "", "tgt", "", some c4Target, [], "", "", "", 0, 0⟩

/-- { << : *tgt, a : "2" } -/
def c4Map : YNode := mapN [c4MergeKey, c4AliasVal, scalarN "a", scalarN "2"]

/-- A ranger that continues through every pair without error. -/
def trueRanger : RangerFunc := fun _ _ => (true, none)

/-- Two mapping keys that are distinct but equivalent under
`sortableNodeMapLess` (same kind, tag, content length and Value). -/
def c5K1 : YNode := mapN [scalarN "x", scalarN "1"]
def c5K2 : YNode := mapN [scalarN "x", scalarN "2"]
def c5A : YNode := mapN [c5K1, scalarN "a", c5K2, scalarN "b"]
def c5B : YNode := mapN [c5K2, scalarN "b", c5K1, scalarN "a"]

/-- A one-node heap: a single scalar, for the CopyNode witness. -/
def c6Heap : List HNode :=
  [⟨.scalar, 0, "!!str", "x", "", none, [], "", "", "", 0, 0⟩]

def c7Path : List PathSeg := [.str "a", .other "float64" "1"]
def c7Root : YNode := mapN [scalarN "a", seqN [scalarN "1"]]

/-- A visit function that fails already at the root visit. -/
def rootErrFn : WalkFn := fun _ _ _ _ => some ⟨.depthFirst, [], some "root failed"⟩

/-- Two sort units are distinguished by the sortableNodeMap ordering
(one compares strictly below the other).  When some keys of a mapping
are equivalent under the ordering (equal kind, tag, content length and
Value — e.g. any two distinct non-scalar keys with the same shape, or
duplicate scalar keys), the sorted order of their pairs is not
determined by the keys and Equal's pairwise comparison can misalign
them; this predicate rules that out. -/
def keysDistinct (p q : YNode × YNode) : Prop :=
  sortableNodeMapLess p q = true ∨ sortableNodeMapLess q p = true

/-- Sorted as `sort.Sort(sortableNodeMap ...)` leaves a slice: no
element compares strictly below an earlier one. -/
def SortedPairs (l : List (YNode × YNode)) : Prop :=
  List.Pairwise (fun p q => sortableNodeMapLess q p = false) l

/-- The relation "equal pair up to formatting metadata". -/
def metaEqPair (p q : YNode × YNode) : Prop :=
  metaEqB p.1 q.1 = true ∧ metaEqB p.2 q.2 = true

/-- The visit function of the C2 traversal: ScalarValuesWalker wrapped
around a pure collecting callback. -/
def svwC : WalkFn := ScalarValuesWalker collectNode

/-- The options Walk builds from [WithBreadthFirst]. -/
def optsB : WalkOptions := ⟨.breadthFirst, none, -1⟩

/-- The deferred continuations one breadth-first pass over `n`'s
Content produces: for a mapping, one per value (with the key as
parent); otherwise one per child. -/
def bfsDefer (n : YNode) (p : Option YNode) (d : Nat) : List Deferred :=
  if n.kind = .mapping then (toPairs n.content).map (fun q => ⟨q.2, some q.1, d + 1⟩)
  else n.content.map (fun c => ⟨c, p, d + 1⟩)

/-- Heap extension: copyNode only ever appends to the heap. -/
def HExt (H1 H2 : List HNode) : Prop :=
  ∃ e, H2 = H1 ++ e

/-- `c` (an address in the extended heap `H2`) is a correct, fresh
copy of the original address `s` (an address in the base heap `H`):
it denotes the same tree, and every address its content spine owns
lies in the fresh region (at or above `H.length`) of `H2`. -/
def GoodCopy (H H2 : List HNode) (s c : Nat) : Prop :=
  H.length ≤ c ∧ c < H2.length ∧
  (∀ G t, treeAt G H s = some t → treeAt G H2 c = some t) ∧
  (∀ G x, x ∈ ownedAddrs G H2 c → H.length ≤ x ∧ x < H2.length)

/-- Every memo entry records a finished, correct copy. -/
def MemoOK (H H2 : List HNode) (memo : List (Nat × Nat)) : Prop :=
  ∀ p ∈ memo, p.1 < H.length ∧ GoodCopy H H2 p.1 p.2

/-! # Theorems -/

/-! ## C8 : AssignNode frame -/

/-- C8: for every destination and source node, AssignNode copies
exactly Kind, Tag, Value, Content, Alias and Anchor from the source
into the destination, and leaves every other destination field
(head/line/foot comments, line, column, style) unchanged. -/
theorem assignNode_frame (d s : YNode) :
    (AssignNode d s).kind = s.kind ∧ (AssignNode d s).tag = s.tag ∧
    (AssignNode d s).value = s.value ∧ (AssignNode d s).content = s.content ∧
    (AssignNode d s).aliasTarget = s.aliasTarget ∧ (AssignNode d s).anchor = s.anchor ∧
    (AssignNode d s).headComment = d.headComment ∧
    (AssignNode d s).lineComment = d.lineComment ∧
    (AssignNode d s).footComment = d.footComment ∧
    (AssignNode d s).line = d.line ∧ (AssignNode d s).column = d.column ∧
    (AssignNode d s).style = d.style :=
  ⟨rfl, rfl, rfl, rfl, rfl, rfl, rfl, rfl, rfl, rfl, rfl, rfl⟩

/-! ## C9 : soft mismatch of Key/Index matchers -/

/-- C9: KeyMatcher's Match on a non-Mapping node returns nil without
invoking the continuation, and IndexMatcher's Match on a non-Sequence
node returns nil without invoking the continuation (the result is
`some ([], none)` for every continuation `fn`: empty invocation trace,
no error). -/
theorem matcher_soft_mismatch (key : String) (i : Int) (n : YNode) (fn : NodeFunc) :
    (n.kind ≠ .mapping → keyPathMatcherMatch key n fn = some ([], none)) ∧
    (n.kind ≠ .sequence → indexPathMatcherMatch i n fn = some ([], none)) := by
  constructor
  · intro h
    unfold keyPathMatcherMatch
    rw [if_pos h]
  · intro h
    unfold indexPathMatcherMatch
    rw [if_pos h]

theorem matcher_soft_mismatch_witness :
    (scalarN "z").kind ≠ YKind.mapping ∧ (scalarN "z").kind ≠ YKind.sequence ∧
    keyPathMatcherMatch "k" (scalarN "z") collectNode = some ([], none) ∧
    indexPathMatcherMatch 0 (scalarN "z") collectNode = some ([], none) :=
  ⟨by decide, by decide,
   (matcher_soft_mismatch "k" 0 (scalarN "z") collectNode).1 (by decide),
   (matcher_soft_mismatch "k" 0 (scalarN "z") collectNode).2 (by decide)⟩

/-! ## C10 : ScalarValuesWalker and the nil parent of the root visit -/

/-- C10: at the initial root visit (parent = nil, position = -1), the
ScalarValuesWalker visit function never dereferences the nil parent
when the document-unwrapped root is not a Scalar (the `||`
short-circuits on `current.Kind != ScalarNode`), but when the
unwrapped root is a Scalar it reads `parent.Kind` with parent = nil
and panics (modelled by the `none` result). -/
theorem svw_nil_parent (root : YNode) (g : NodeFunc) (opts : WalkOptions) :
    ((unwrapDocument root).kind ≠ .scalar →
      ScalarValuesWalker g (unwrapDocument root) none (-1) opts =
        some ⟨opts.missStatus, [], none⟩) ∧
    ((unwrapDocument root).kind = .scalar →
      ScalarValuesWalker g (unwrapDocument root) none (-1) opts = none) := by
  constructor
  · intro h
    unfold ScalarValuesWalker
    rw [if_pos h]
  · intro h
    unfold ScalarValuesWalker
    rw [if_neg (by simp [h])]

theorem svw_nil_parent_witness :
    (unwrapDocument (scalarN "s")).kind = YKind.scalar ∧
    ScalarValuesWalker collectNode (unwrapDocument (scalarN "s")) none (-1)
      defaultWalkOptions = none ∧
    (unwrapDocument (seqN [scalarN "s"])).kind ≠ YKind.scalar ∧
    ScalarValuesWalker collectNode (unwrapDocument (seqN [scalarN "s"])) none (-1)
      defaultWalkOptions = some ⟨WalkStatus.depthFirst, [], none⟩ :=
  ⟨rfl,
   (svw_nil_parent (scalarN "s") collectNode defaultWalkOptions).2 rfl,
   by decide,
   (svw_nil_parent (seqN [scalarN "s"]) collectNode defaultWalkOptions).1 (by decide)⟩

/-! ## C7 : WalkPath configuration errors -/

theorem buildMatchers_firstOther (path : List PathSeg) (msg : String)
    (h : firstOtherMsg path = some msg) : buildMatchers path = .error msg := by
  induction path with
  | nil => simp [firstOtherMsg] at h
  | cons p rest ih =>
    cases p with
    | str s =>
      simp only [firstOtherMsg] at h
      simp [buildMatchers, ih h, Except.map]
    | int i =>
      simp only [firstOtherMsg] at h
      simp [buildMatchers, ih h, Except.map]
    | node n =>
      simp only [firstOtherMsg] at h
      simp [buildMatchers, ih h, Except.map]
    | other t v =>
      simp only [firstOtherMsg, Option.some.injEq] at h
      simp [buildMatchers, h]

/-- C7: when a path contains a segment that is not a string, an int or
a node reference, WalkPath fails with the configuration error naming
the first such segment's dynamic type and value, the final callback is
never invoked (empty trace), and no matcher runs (the result does not
depend on the root or the callback). -/
theorem walkPath_invalid_segment (root : YNode) (fn : NodeFunc) (path : List PathSeg)
    (msg : String) (h : firstOtherMsg path = some msg) :
    WalkPath root fn path = some ([], some msg) := by
  unfold WalkPath
  rw [buildMatchers_firstOther path msg h]

theorem walkPath_invalid_segment_witness :
    firstOtherMsg c7Path = some "Unable to make PathMatcher from type float64 (1)" ∧
    WalkPath c7Root collectNode c7Path =
      some ([], some "Unable to make PathMatcher from type float64 (1)") :=
  ⟨rfl, walkPath_invalid_segment c7Root collectNode c7Path _ rfl⟩

/-! ## C1 : Walk error propagation (code bug) -/

/-- C1 (documents the defect): the visit function fails (non-nil
error) when invoked on the scalar "1", yet `Walk` returns nil.  The
first conjunct shows the failing invocation as Walk makes it during
the primary depth-first pass over `[ "1" ]`; the second shows Walk's
return value is nil nonetheless (the trace confirms the visit ran).
The third conjunct shows the same for an error arising inside a
deferred breadth-first continuation on `[ [ "1" ] ]`.  The fourth
shows the contrast: an error at the initial root visit is propagated.
The claim's statement — every non-nil visit error is returned by
Walk — is the spec's written contract (spec §4.1 failure semantics),
and the spec itself flags the lines `return nil` (walk.go 103 and 115)
as a latent defect; the code therefore contradicts the claim on the
depth-first and deferred-continuation phases. -/
theorem walk_swallows_visit_errors :
    ScalarValuesWalker errAllFn (scalarN "1") (some c1Root) 0 defaultWalkOptions =
      some ⟨.depthFirst, [scalarN "1"], some "visit failed"⟩ ∧
    Walk c1Root (ScalarValuesWalker errAllFn) [] = some ([scalarN "1"], none) ∧
    Walk c1RootB (ScalarValuesWalker errAllFn) [WithBreadthFirst] =
      some ([scalarN "1"], none) ∧
    Walk c1Root rootErrFn [] = some ([], some "root failed") :=
  ⟨rfl, rfl, rfl, rfl⟩

/-! ## C4 : RangeMap and merge keys (corrected) -/

/-- C4 counterexample: `c4Map` is a mapping containing a key whose Tag
is the merge marker ("!!merge"), whose value is an alias to the
mapping { x : "1" }.  The claim says the merge pair itself is never
passed to `f` and the referenced mapping's pairs are; but RangeMap
(utils.go, lines 408-428) passes the merge key/value pair directly to
`f` and never surfaces (x, "1"). -/
theorem rangeMap_merge_counterexample :
    c4MergeKey.tag = "!!merge" ∧
    RangeMap c4Map trueRanger =
      ([(c4MergeKey, c4AliasVal), (scalarN "a", scalarN "2")], none) :=
  ⟨rfl, rfl⟩

theorem rangeMapLoop_all_true (f : RangerFunc) (h : ∀ k v, f k v = (true, none)) :
    ∀ ps, rangeMapLoop f ps = (ps, none) := by
  intro ps
  induction ps with
  | nil => rfl
  | cons p rest ih =>
    cases p with
    | mk k v => simp [rangeMapLoop, h k v, ih]

/-- C4 amended: RangeMap passes every key/value pair of the
(alias-indirected) mapping to `f` in order, including any pair whose
key Tag is the reserved merge marker; the pairs of a mapping
referenced by a merge value are never surfaced (no merge flattening
takes place in this RangeMap). -/
theorem rangeMap_passes_all_pairs (node : YNode) (f : RangerFunc)
    (hk : (Indirect node).kind = .mapping)
    (he : (Indirect node).content.length % 2 = 0) :
    (∀ k v, f k v = (true, none)) →
    RangeMap node f = (toPairs (Indirect node).content, none) := by
  intro hf
  unfold RangeMap
  simp only [hk]
  rw [if_neg (by simp), if_neg (by simp [he])]
  exact rangeMapLoop_all_true f hf _

theorem rangeMap_passes_all_pairs_witness :
    (Indirect c4Map).kind = YKind.mapping ∧
    (Indirect c4Map).content.length % 2 = 0 ∧
    RangeMap c4Map trueRanger = (toPairs (Indirect c4Map).content, none) :=
  ⟨rfl, rfl, rangeMap_passes_all_pairs c4Map trueRanger rfl rfl (fun _ _ => rfl)⟩

/-! ## C3 : AssignMapNode on an existing key (code bug) -/

/-- C3 (documents the defect): `c3Map` is { b : "1" }; assigning value
"x" under key "b" should, per the claim, overwrite the value node
(yielding { b : "x" }) and leave the key node unchanged.  Instead
the lookup `WalkPath(mapNode, fn, keyNode)` goes through
nodePathMatcher.Match (walk.go, lines 253-261), which passes the
matched node itself — the key node — to the callback, so AssignNode
overwrites the KEY: the map becomes { x : "1" } (key Value "x", value
still "1"), and nothing is inserted. -/
theorem assignMapNode_overwrites_key :
    AssignMapNode c3Map c3Key c3Val = some (.ok (mapN [scalarN "x", scalarN "1"])) ∧
    (mapN [scalarN "x", scalarN "1"]).content.map (fun c => c.value) = ["x", "1"] :=
  ⟨rfl, rfl⟩

/-! ## C5 groundwork : sizes, Indirect, sorting, Equal stability -/

theorem msize_pos (n : YNode) : 1 ≤ msize n := by
  cases n with
  | mk k st tg v a al c hc lc fc l col => simp only [msize]; omega

theorem msizeList_append (l1 l2 : List YNode) :
    msizeList (l1 ++ l2) = msizeList l1 + msizeList l2 := by
  induction l1 with
  | nil => simp [msizeList]
  | cons x xs ih => simp [msizeList, ih, Nat.add_assoc]

theorem msize_mem_le {x : YNode} {l : List YNode} (h : x ∈ l) : msize x ≤ msizeList l := by
  induction l with
  | nil => cases h
  | cons y ys ih =>
    rcases List.mem_cons.mp h with h1 | h2
    · subst h1; simp only [msizeList]; omega
    · have := ih h2; simp only [msizeList]; omega

theorem msizeList_lt_msize (n : YNode) : msizeList n.content < msize n := by
  cases n with
  | mk k st tg v a al c hc lc fc l col => simp only [msize]; omega

theorem Indirect_eq_self {a : YNode} (h : a.kind ≠ .alias) : Indirect a = a := by
  cases a with
  | mk k st tg v an al c hc lc fc l col =>
    cases k <;> cases al <;> first | rfl | exact absurd rfl h

theorem msize_Indirect_le (a : YNode) : msize (Indirect a) ≤ msize a := by
  induction a using Indirect.induct with
  | case1 st t v an tgt c hc lc fc l col ih =>
    have h1 : Indirect (YNode.mk .alias st t v an (some tgt) c hc lc fc l col) =
        Indirect tgt := rfl
    rw [h1]
    refine le_trans ih ?_
    simp only [msize, msizeOpt]
    omega
  | case2 n h =>
    have h2 : Indirect n = n := by
      cases n with
      | mk k st tg v an al c hc lc fc l col =>
        cases k <;> cases al <;> try rfl
        exact (h _ _ _ _ _ _ _ _ _ _ _ rfl).elim
    rw [h2]

theorem sortPairsInsert_perm (p : YNode × YNode) (l : List (YNode × YNode)) :
    List.Perm (sortPairsInsert p l) (p :: l) := by
  induction l with
  | nil => simp [sortPairsInsert]
  | cons q qs ih =>
    by_cases h : sortableNodeMapLess p q
    · simp [sortPairsInsert, h]
    · simp only [sortPairsInsert, h, Bool.false_eq_true, if_false]
      exact (List.Perm.cons q ih).trans (List.Perm.swap p q qs)

theorem sortPairs_perm (l : List (YNode × YNode)) : List.Perm (sortPairs l) l := by
  have key : ∀ (l acc : List (YNode × YNode)),
      List.Perm (l.foldl (fun acc p => sortPairsInsert p acc) acc) (l ++ acc) := by
    intro l
    induction l with
    | nil => intro acc; simp
    | cons p rest ih =>
      intro acc
      have h1 := ih (sortPairsInsert p acc)
      have h2 : List.Perm (rest ++ sortPairsInsert p acc) (rest ++ (p :: acc)) :=
        List.Perm.append_left rest (sortPairsInsert_perm p acc)
      have h3 : List.Perm (rest ++ (p :: acc)) (p :: (rest ++ acc)) := List.perm_middle
      simpa using h1.trans (h2.trans h3)
  simpa [sortPairs] using key l []

theorem flattenPairs_toPairs_oddTail (l : List YNode) :
    flattenPairs (toPairs l) ++ oddTail l = l := by
  induction l using toPairs.induct with
  | case1 k v rest ih => simp [toPairs, oddTail, flattenPairs, ih]
  | case2 l h =>
    cases l with
    | nil => rfl
    | cons x xs =>
      cases xs with
      | nil => rfl
      | cons y ys => exact absurd rfl (h x y ys)

theorem flattenPairs_perm {ps qs : List (YNode × YNode)} (h : List.Perm ps qs) :
    List.Perm (flattenPairs ps) (flattenPairs qs) := by
  induction h with
  | nil => exact List.Perm.refl _
  | cons x h ih =>
    cases x with
    | mk k v => simpa [flattenPairs] using List.Perm.cons k (List.Perm.cons v ih)
  | swap x y l =>
    cases x with
    | mk k1 v1 =>
      cases y with
      | mk k2 v2 =>
        simp only [flattenPairs]
        have h4 := List.Perm.append_right (flattenPairs l)
          (@List.perm_append_comm _ [k2, v2] [k1, v1])
        simpa using h4
  | trans h1 h2 ih1 ih2 => exact ih1.trans ih2

theorem sortContent_perm (l : List YNode) : List.Perm (sortContent l) l := by
  have h1 : List.Perm (flattenPairs (sortPairs (toPairs l))) (flattenPairs (toPairs l)) :=
    flattenPairs_perm (sortPairs_perm _)
  have h2 : List.Perm (sortContent l) (flattenPairs (toPairs l) ++ oddTail l) := by
    simpa [sortContent] using List.Perm.append_right (oddTail l) h1
  rw [flattenPairs_toPairs_oddTail l] at h2
  exact h2

theorem allZip_congr {p q : YNode → YNode → Bool} :
    ∀ {xs ys : List YNode}, (∀ x ∈ xs, ∀ y, p x y = q x y) →
    allZip p xs ys = allZip q xs ys := by
  intro xs
  induction xs with
  | nil => intro ys h; cases ys <;> rfl
  | cons x xs2 ih =>
    intro ys h
    cases ys with
    | nil => rfl
    | cons y ys2 =>
      simp only [allZip]
      rw [h x (by simp) y, ih (fun z hz w => h z (by simp [hz]) w)]

theorem allZip_refl {p : YNode → YNode → Bool} :
    ∀ {l : List YNode}, (∀ x ∈ l, p x x = true) → allZip p l l = true := by
  intro l
  induction l with
  | nil => intro _; rfl
  | cons x xs ih =>
    intro h
    simp only [allZip, Bool.and_eq_true]
    exact ⟨h x (by simp), ih (fun z hz => h z (by simp [hz]))⟩

theorem allZip_get {p : YNode → YNode → Bool} :
    ∀ {xs ys : List YNode}, allZip p xs ys = true →
    xs.length = ys.length ∧
      ∀ (i : Nat) (x y : YNode), xs[i]? = some x → ys[i]? = some y → p x y = true := by
  intro xs
  induction xs with
  | nil =>
    intro ys h
    cases ys with
    | nil => exact ⟨rfl, by intro i x y hx; simp at hx⟩
    | cons y ys2 => simp [allZip] at h
  | cons x xs2 ih =>
    intro ys h
    cases ys with
    | nil => simp [allZip] at h
    | cons y ys2 =>
      simp only [allZip, Bool.and_eq_true] at h
      obtain ⟨h1, h2⟩ := h
      obtain ⟨hl, hg⟩ := ih h2
      refine ⟨by simp [hl], ?_⟩
      intro i a b ha hb
      cases i with
      | zero =>
        simp only [List.getElem?_cons_zero, Option.some.injEq] at ha hb
        rw [← ha, ← hb]; exact h1
      | succ j =>
        simp only [List.getElem?_cons_succ] at ha hb
        exact hg j a b ha hb

theorem mem_of_mem_sortContent {x : YNode} {l : List YNode}
    (h : x ∈ sortContent l) : x ∈ l :=
  (sortContent_perm l).mem_iff.mp h

theorem EqualF_stable_aux : ∀ (M : Nat) (a : YNode), msize a ≤ M →
    ∀ (f1 f2 : Nat) (b : YNode), msize a ≤ f1 → msize a ≤ f2 →
    EqualF f1 a b = EqualF f2 a b := by
  intro M
  induction M with
  | zero => intro a ha; have := msize_pos a; omega
  | succ M ih =>
    intro a ha f1 f2 b h1 h2
    have hp := msize_pos a
    obtain ⟨g1, rfl⟩ : ∃ g, f1 = g + 1 := ⟨f1 - 1, by omega⟩
    obtain ⟨g2, rfl⟩ : ∃ g, f2 = g + 1 := ⟨f2 - 1, by omega⟩
    have hile := msize_Indirect_le a
    have key : ∀ (X Y : List YNode), (∀ x ∈ X, msize x < msize a) →
        allZip (EqualF g1) X Y = allZip (EqualF g2) X Y := by
      intro X Y hX
      refine allZip_congr ?_
      intro x hx y
      have hxa := hX x hx
      exact ih x (by omega) g1 g2 y (by omega) (by omega)
    have hmem : ∀ x ∈ (Indirect a).content, msize x < msize a := by
      intro x hx
      have := msize_mem_le hx
      have := msizeList_lt_msize (Indirect a)
      omega
    simp only [EqualF]
    split_ifs
    · rfl
    · rfl
    · rfl
    · rfl
    · exact key _ _ (fun x hx => hmem x (mem_of_mem_sortContent hx))
    · exact key _ _ hmem

theorem EqualF_eq_Equal {a b : YNode} {fuel : Nat} (h : msize a ≤ fuel) :
    EqualF fuel a b = Equal a b :=
  EqualF_stable_aux (msize a) a le_rfl fuel (msize a) b h le_rfl

theorem EqualF_refl_aux : ∀ (M : Nat) (a : YNode), msize a ≤ M →
    ∀ fuel, msize a ≤ fuel → EqualF fuel a a = true := by
  intro M
  induction M with
  | zero => intro a ha; have := msize_pos a; omega
  | succ M ih =>
    intro a ha fuel h1
    have hp := msize_pos a
    obtain ⟨g, rfl⟩ : ∃ g, fuel = g + 1 := ⟨fuel - 1, by omega⟩
    have hmem : ∀ x ∈ (Indirect a).content, msize x < msize a := by
      intro x hx
      have := msize_mem_le hx
      have := msizeList_lt_msize (Indirect a)
      have := msize_Indirect_le a
      omega
    have key : ∀ (X : List YNode), (∀ x ∈ X, msize x < msize a) →
        allZip (EqualF g) X X = true := by
      intro X hX
      refine allZip_refl ?_
      intro x hx
      exact ih x (by have := hX x hx; omega) g (by have := hX x hx; omega)
    simp only [EqualF]
    split_ifs with hg1 hg2 hg3 hg4 hg5
    · exact absurd rfl hg1
    · exact absurd rfl hg2
    · exact absurd rfl hg3
    · exact absurd rfl hg4
    · exact key _ (fun x hx => hmem x (mem_of_mem_sortContent hx))
    · exact key _ hmem

theorem Equal_refl (a : YNode) : Equal a a = true :=
  EqualF_refl_aux (msize a) a le_rfl (msize a) le_rfl

theorem charsLtB_irrefl : ∀ l : List Char, charsLtB l l = false := by
  intro l
  induction l with
  | nil => rfl
  | cons a as ih => simp [charsLtB, ih]

theorem charsLtB_asymm : ∀ l1 l2 : List Char,
    charsLtB l1 l2 = true → charsLtB l2 l1 = false := by
  intro l1
  induction l1 with
  | nil =>
    intro l2 h
    cases l2 with
    | nil => simp [charsLtB] at h
    | cons b bs => rfl
  | cons a as ih =>
    intro l2 h
    cases l2 with
    | nil => simp [charsLtB] at h
    | cons b bs =>
      simp only [charsLtB] at h ⊢
      by_cases hab : a.toNat < b.toNat
      · rw [if_neg (by omega : ¬ b.toNat < a.toNat), if_pos hab]
      · rw [if_neg hab] at h
        by_cases hba : b.toNat < a.toNat
        · rw [if_pos hba] at h; simp at h
        · rw [if_neg hba] at h
          rw [if_neg hba, if_neg hab]
          exact ih bs h

theorem charsLtB_trans : ∀ l1 l2 l3 : List Char,
    charsLtB l1 l2 = true → charsLtB l2 l3 = true → charsLtB l1 l3 = true := by
  intro l1
  induction l1 with
  | nil =>
    intro l2 l3 h12 h23
    cases l2 with
    | nil => simp [charsLtB] at h12
    | cons b bs =>
      cases l3 with
      | nil => simp [charsLtB] at h23
      | cons c cs => rfl
  | cons a as ih =>
    intro l2 l3 h12 h23
    cases l2 with
    | nil => simp [charsLtB] at h12
    | cons b bs =>
      cases l3 with
      | nil => simp [charsLtB] at h23
      | cons c cs =>
        simp only [charsLtB] at h12 h23 ⊢
        by_cases hab : a.toNat < b.toNat
        · by_cases hbc : b.toNat < c.toNat
          · rw [if_pos (by omega)]
          · rw [if_neg hbc] at h23
            by_cases hcb : c.toNat < b.toNat
            · rw [if_pos hcb] at h23; simp at h23
            · rw [if_pos (by omega)]
        · rw [if_neg hab] at h12
          by_cases hba : b.toNat < a.toNat
          · rw [if_pos hba] at h12; simp at h12
          · rw [if_neg hba] at h12
            by_cases hbc : b.toNat < c.toNat
            · rw [if_pos (by omega)]
            · rw [if_neg hbc] at h23
              by_cases hcb : c.toNat < b.toNat
              · rw [if_pos hcb] at h23; simp at h23
              · rw [if_neg hcb] at h23
                rw [if_neg (by omega), if_neg (by omega)]
                exact ih bs cs h12 h23

theorem strLtB_irrefl (a : String) : strLtB a a = false := charsLtB_irrefl a.data

theorem strLtB_asymm {a b : String} (h : strLtB a b = true) : strLtB b a = false :=
  charsLtB_asymm a.data b.data h

theorem strLtB_trans {a b c : String} (h1 : strLtB a b = true) (h2 : strLtB b c = true) :
    strLtB a c = true :=
  charsLtB_trans a.data b.data c.data h1 h2

theorem strLtB_ne {a b : String} (h : strLtB a b = true) : a ≠ b := by
  intro e
  rw [e, strLtB_irrefl] at h
  cases h

theorem kindVal_inj : ∀ k1 k2 : YKind, kindVal k1 = kindVal k2 → k1 = k2 := by
  intro k1 k2 h
  cases k1 <;> cases k2 <;> first | rfl | (exfalso; simp [kindVal] at h)

theorem sortableNodeMapLess_asymm {p q : YNode × YNode}
    (h : sortableNodeMapLess p q = true) : sortableNodeMapLess q p = false := by
  simp only [sortableNodeMapLess] at h ⊢
  by_cases hk : p.1.kind = q.1.kind
  · rw [if_neg (by simp [hk])] at h
    rw [if_neg (by simp [hk])]
    by_cases ht : p.1.tag = q.1.tag
    · rw [if_neg (by simp [ht])] at h
      rw [if_neg (by simp [ht])]
      by_cases hl : p.1.content.length = q.1.content.length
      · rw [if_neg (by simp [hl])] at h
        rw [if_neg (by simp [hl])]
        exact strLtB_asymm h
      · rw [if_pos hl] at h
        rw [if_pos (fun e => hl e.symm)]
        simp only [decide_eq_true_eq] at h
        simp only [decide_eq_false_iff_not]
        omega
    · rw [if_pos ht] at h
      rw [if_pos (fun e => ht e.symm)]
      exact strLtB_asymm h
  · rw [if_pos hk] at h
    rw [if_pos (fun e => hk e.symm)]
    simp only [decide_eq_true_eq] at h
    simp only [decide_eq_false_iff_not]
    omega

theorem sortableNodeMapLess_trans {p q r : YNode × YNode}
    (h1 : sortableNodeMapLess p q = true) (h2 : sortableNodeMapLess q r = true) :
    sortableNodeMapLess p r = true := by
  simp only [sortableNodeMapLess] at h1 h2 ⊢
  by_cases hpq : p.1.kind = q.1.kind
  · rw [if_neg (by simp [hpq])] at h1
    by_cases hqr : q.1.kind = r.1.kind
    · rw [if_neg (by simp [hqr])] at h2
      rw [if_neg (by simp [hpq, hqr])]
      by_cases htpq : p.1.tag = q.1.tag
      · rw [if_neg (by simp [htpq])] at h1
        by_cases htqr : q.1.tag = r.1.tag
        · rw [if_neg (by simp [htqr])] at h2
          rw [if_neg (by simp [htpq, htqr])]
          by_cases hlpq : p.1.content.length = q.1.content.length
          · rw [if_neg (by simp [hlpq])] at h1
            by_cases hlqr : q.1.content.length = r.1.content.length
            · rw [if_neg (by simp [hlqr])] at h2
              rw [if_neg (by simp [hlpq, hlqr])]
              exact strLtB_trans h1 h2
            · rw [if_pos hlqr] at h2
              rw [if_pos (by rw [hlpq]; exact hlqr)]
              simp only [decide_eq_true_eq] at h2 ⊢
              omega
          · rw [if_pos hlpq] at h1
            simp only [decide_eq_true_eq] at h1
            by_cases hlqr : q.1.content.length = r.1.content.length
            · rw [if_pos (fun e => hlpq (e.trans hlqr.symm))]
              simp only [decide_eq_true_eq]
              omega
            · rw [if_pos hlqr] at h2
              simp only [decide_eq_true_eq] at h2
              rw [if_pos (by omega)]
              simp only [decide_eq_true_eq]
              omega
        · rw [if_pos htqr] at h2
          rw [if_pos (by rw [htpq]; exact htqr)]
          rw [htpq]
          exact h2
      · rw [if_pos htpq] at h1
        by_cases htqr : q.1.tag = r.1.tag
        · rw [if_pos (fun e => htpq (e.trans htqr.symm))]
          rw [← htqr]
          exact h1
        · rw [if_pos htqr] at h2
          rw [if_pos (strLtB_ne (strLtB_trans h1 h2))]
          exact strLtB_trans h1 h2
    · rw [if_pos hqr] at h2
      rw [if_pos (fun e => hqr (hpq.symm.trans e))]
      simp only [decide_eq_true_eq] at h2 ⊢
      rw [hpq]
      exact h2
  · rw [if_pos hpq] at h1
    by_cases hqr : q.1.kind = r.1.kind
    · rw [if_pos (fun e => hpq (e.trans hqr.symm))]
      simp only [decide_eq_true_eq] at h1 ⊢
      rw [← hqr]
      exact h1
    · rw [if_pos hqr] at h2
      simp only [decide_eq_true_eq] at h1 h2
      have hpr : kindVal p.1.kind < kindVal r.1.kind := by omega
      rw [if_pos (fun e => by rw [e] at hpr; omega)]
      simp only [decide_eq_true_eq]
      exact hpr

theorem keysDistinct_symm : Symmetric keysDistinct := by
  intro p q h
  rcases h with h | h
  · exact Or.inr h
  · exact Or.inl h

theorem sortPairsInsert_sorted {p : YNode × YNode} {l : List (YNode × YNode)}
    (hs : SortedPairs l) : SortedPairs (sortPairsInsert p l) := by
  induction l with
  | nil =>
    simp only [sortPairsInsert, SortedPairs]
    exact List.pairwise_singleton _ _
  | cons q qs ih =>
    obtain ⟨hq, hqs⟩ := List.pairwise_cons.mp hs
    by_cases h : sortableNodeMapLess p q = true
    · simp only [sortPairsInsert, h, if_true]
      refine List.pairwise_cons.mpr ⟨?_, hs⟩
      intro r hr
      rcases List.mem_cons.mp hr with rfl | hr2
      · exact sortableNodeMapLess_asymm h
      · by_contra hc
        rw [Bool.not_eq_false] at hc
        have htr := sortableNodeMapLess_trans hc h
        rw [hq r hr2] at htr
        cases htr
    · simp only [sortPairsInsert, h, if_false]
      refine List.pairwise_cons.mpr ⟨?_, ih hqs⟩
      intro r hr
      have hmem := (sortPairsInsert_perm p qs).mem_iff.mp hr
      rcases List.mem_cons.mp hmem with rfl | hr2
      · simpa using h
      · exact hq r hr2

theorem sortPairs_sorted (l : List (YNode × YNode)) : SortedPairs (sortPairs l) := by
  have key : ∀ (l acc : List (YNode × YNode)), SortedPairs acc →
      SortedPairs (l.foldl (fun acc p => sortPairsInsert p acc) acc) := by
    intro l
    induction l with
    | nil => intro acc h; exact h
    | cons p rest ih => intro acc h; exact ih _ (sortPairsInsert_sorted h)
  exact key l [] List.Pairwise.nil

theorem sorted_distinct_perm_eq : ∀ {l1 l2 : List (YNode × YNode)},
    List.Perm l1 l2 → SortedPairs l1 → SortedPairs l2 →
    List.Pairwise keysDistinct l1 → l1 = l2 := by
  intro l1
  induction l1 with
  | nil =>
    intro l2 hp _ _ _
    exact (hp.symm.eq_nil).symm
  | cons x xs ih =>
    intro l2 hp hs1 hs2 hd
    cases l2 with
    | nil =>
      have := hp.eq_nil
      cases this
    | cons y ys =>
      by_cases hxy : x = y
      · subst hxy
        have hp2 := hp.cons_inv
        have hrec := ih hp2 (List.pairwise_cons.mp hs1).2 (List.pairwise_cons.mp hs2).2
          (List.pairwise_cons.mp hd).2
        rw [hrec]
      · exfalso
        have hx2 : x ∈ y :: ys := hp.mem_iff.mp (by simp)
        have hxys : x ∈ ys := by
          rcases List.mem_cons.mp hx2 with h | h
          · exact absurd h hxy
          · exact h
        have hy1 : y ∈ x :: xs := hp.mem_iff.mpr (by simp)
        have hyxs : y ∈ xs := by
          rcases List.mem_cons.mp hy1 with h | h
          · exact absurd h.symm hxy
          · exact h
        have h1 : sortableNodeMapLess y x = false := (List.pairwise_cons.mp hs1).1 y hyxs
        have h2 : sortableNodeMapLess x y = false := (List.pairwise_cons.mp hs2).1 x hxys
        rcases (List.pairwise_cons.mp hd).1 y hyxs with h | h
        · rw [h2] at h; cases h
        · rw [h1] at h; cases h

theorem toPairs_length_even : ∀ {l : List YNode}, l.length % 2 = 0 →
    l.length = 2 * (toPairs l).length := by
  intro l
  induction l using toPairs.induct with
  | case1 k v rest ih =>
    intro h
    simp only [List.length_cons] at h
    have hr := ih (by omega)
    simp only [toPairs, List.length_cons]
    omega
  | case2 l h =>
    intro he
    cases l with
    | nil => rfl
    | cons x xs =>
      cases xs with
      | nil => simp at he
      | cons y ys => exact absurd rfl (h x y ys)

theorem oddTail_nil_of_even : ∀ {l : List YNode}, l.length % 2 = 0 → oddTail l = [] := by
  intro l
  induction l using toPairs.induct with
  | case1 k v rest ih =>
    intro h
    simp only [List.length_cons] at h
    exact ih (by omega)
  | case2 l h =>
    intro he
    cases l with
    | nil => rfl
    | cons x xs =>
      cases xs with
      | nil => simp at he
      | cons y ys => exact absurd rfl (h x y ys)

theorem metaEqB_parts {a b : YNode} (h : metaEqB a b = true) :
    a.kind = b.kind ∧ a.tag = b.tag ∧ a.value = b.value ∧ a.anchor = b.anchor ∧
    metaEqOptB a.aliasTarget b.aliasTarget = true ∧
    metaEqListB a.content b.content = true := by
  cases a with
  | mk k1 st1 t1 v1 an1 al1 c1 hc1 lc1 fc1 l1 col1 =>
    cases b with
    | mk k2 st2 t2 v2 an2 al2 c2 hc2 lc2 fc2 l2 col2 =>
      simp only [metaEqB, Bool.and_eq_true, decide_eq_true_eq] at h
      exact ⟨h.1.1.1.1.1, h.1.1.1.1.2, h.1.1.1.2, h.1.1.2, h.1.2, h.2⟩

theorem metaEqListB_length : ∀ {c1 c2 : List YNode},
    metaEqListB c1 c2 = true → c1.length = c2.length := by
  intro c1
  induction c1 with
  | nil =>
    intro c2 h
    cases c2 with
    | nil => rfl
    | cons b bs => simp [metaEqListB] at h
  | cons a as2 ih =>
    intro c2 h
    cases c2 with
    | nil => simp [metaEqListB] at h
    | cons b bs =>
      simp only [metaEqListB, Bool.and_eq_true] at h
      simp [ih h.2]

theorem metaEq_msize : ∀ (M : Nat) (a b : YNode), msize a ≤ M →
    metaEqB a b = true → msize a = msize b := by
  intro M
  induction M with
  | zero => intro a b ha; have := msize_pos a; omega
  | succ M ih =>
    intro a b ha h
    obtain ⟨hk, ht, hv, han, hopt, hlist⟩ := metaEqB_parts h
    have hopt2 : msizeOpt a.aliasTarget = msizeOpt b.aliasTarget := by
      cases hala : a.aliasTarget with
      | none =>
        cases halb : b.aliasTarget with
        | none => rfl
        | some t2 => rw [hala, halb] at hopt; simp [metaEqOptB] at hopt
      | some t1 =>
        cases halb : b.aliasTarget with
        | none => rw [hala, halb] at hopt; simp [metaEqOptB] at hopt
        | some t2 =>
          rw [hala, halb] at hopt
          simp only [metaEqOptB] at hopt
          have hsz : msize t1 ≤ M := by
            have h2 : msizeOpt a.aliasTarget = msize t1 := by rw [hala]; rfl
            have h3 := msizeList_lt_msize a
            cases a with
            | mk k1 st1 t1x v1 an1 al1 c1 hc1 lc1 fc1 l1 col1 =>
              simp only [msize] at ha ⊢
              simp only [YNode.aliasTarget] at h2
              omega
          simp only [msizeOpt]
          exact ih t1 t2 hsz hopt
    have hlist2 : msizeList a.content = msizeList b.content := by
      have key : ∀ (l1 l2 : List YNode), (∀ x ∈ l1, msize x ≤ M) →
          metaEqListB l1 l2 = true → msizeList l1 = msizeList l2 := by
        intro l1
        induction l1 with
        | nil =>
          intro l2 hb hml
          cases l2 with
          | nil => rfl
          | cons b bs => simp [metaEqListB] at hml
        | cons x xs ihl =>
          intro l2 hb hml
          cases l2 with
          | nil => simp [metaEqListB] at hml
          | cons y ys =>
            simp only [metaEqListB, Bool.and_eq_true] at hml
            have h1 := ih x y (hb x (by simp)) hml.1
            have h2 := ihl ys (fun z hz => hb z (by simp [hz])) hml.2
            simp only [msizeList]
            omega
      refine key _ _ ?_ hlist
      intro x hx
      have h1 := msize_mem_le hx
      have h2 := msizeList_lt_msize a
      omega
    cases a with
    | mk k1 st1 t1 v1 an1 al1 c1 hc1 lc1 fc1 l1 col1 =>
      cases b with
      | mk k2 st2 t2 v2 an2 al2 c2 hc2 lc2 fc2 l2 col2 =>
        simp only [msize]
        simp only [YNode.aliasTarget, YNode.content] at hopt2 hlist2
        omega

theorem metaEq_Indirect : ∀ (M : Nat) (a b : YNode), msize a ≤ M →
    metaEqB a b = true → metaEqB (Indirect a) (Indirect b) = true := by
  intro M
  induction M with
  | zero => intro a b ha; have := msize_pos a; omega
  | succ M ih =>
    intro a b ha h
    obtain ⟨hk, ht, hv, han, hopt, hlist⟩ := metaEqB_parts h
    cases a with
    | mk k1 st1 t1 v1 an1 al1 c1 hc1 lc1 fc1 l1 col1 =>
      cases b with
      | mk k2 st2 t2 v2 an2 al2 c2 hc2 lc2 fc2 l2 col2 =>
        simp only [YNode.kind] at hk
        subst hk
        cases k1
        · exact h
        · exact h
        · exact h
        · exact h
        · cases al1 with
          | none =>
            cases al2 with
            | none => exact h
            | some t2 => exact (Bool.false_ne_true hopt).elim
          | some t1 =>
            cases al2 with
            | none => exact (Bool.false_ne_true hopt).elim
            | some t2 =>
              have hsz : msize t1 ≤ M := by
                simp only [msize, msizeOpt] at ha
                omega
              exact ih t1 t2 hsz hopt

theorem less_congr {p p2 q q2 : YNode × YNode}
    (hp : metaEqPair p p2) (hq : metaEqPair q q2) :
    sortableNodeMapLess p q = sortableNodeMapLess p2 q2 := by
  obtain ⟨hpk, hpt, hpv, _, _, hpl⟩ := metaEqB_parts hp.1
  obtain ⟨hqk, hqt, hqv, _, _, hql⟩ := metaEqB_parts hq.1
  have hplen := metaEqListB_length hpl
  have hqlen := metaEqListB_length hql
  simp only [sortableNodeMapLess, hpk, hpt, hpv, hplen, hqk, hqt, hqv, hqlen]

theorem metaEqListB_forall2 : ∀ {c1 c2 : List YNode},
    metaEqListB c1 c2 = true ↔ List.Forall₂ (fun x y => metaEqB x y = true) c1 c2 := by
  intro c1
  induction c1 with
  | nil =>
    intro c2
    cases c2 with
    | nil => simp [metaEqListB]
    | cons b bs => simp [metaEqListB]
  | cons a as2 ih =>
    intro c2
    cases c2 with
    | nil => simp [metaEqListB]
    | cons b bs =>
      simp [metaEqListB, List.forall₂_cons, ih]

theorem toPairs_forall2 : ∀ {c1 c2 : List YNode}, metaEqListB c1 c2 = true →
    List.Forall₂ metaEqPair (toPairs c1) (toPairs c2) := by
  intro c1
  induction c1 using toPairs.induct with
  | case1 k v rest ih =>
    intro c2 h
    cases c2 with
    | nil => simp [metaEqListB] at h
    | cons b bs =>
      cases bs with
      | nil =>
        simp only [metaEqListB, Bool.and_eq_true] at h
        simp [metaEqListB] at h
      | cons b2 bs2 =>
        simp only [metaEqListB, Bool.and_eq_true] at h
        simp only [toPairs]
        exact List.Forall₂.cons ⟨h.1, h.2.1⟩ (ih h.2.2)
  | case2 l hnot =>
    intro c2 h
    cases l with
    | nil =>
      cases c2 with
      | nil => exact List.Forall₂.nil
      | cons b bs => simp [metaEqListB] at h
    | cons x xs =>
      cases xs with
      | nil =>
        cases c2 with
        | nil => simp [metaEqListB] at h
        | cons b bs =>
          cases bs with
          | nil => exact List.Forall₂.nil
          | cons b2 bs2 =>
            simp only [metaEqListB, Bool.and_eq_true] at h
            simp [metaEqListB] at h
      | cons y ys => exact absurd rfl (hnot x y ys)

theorem sortPairsInsert_congr : ∀ {l l2 : List (YNode × YNode)} {p p2 : YNode × YNode},
    List.Forall₂ metaEqPair l l2 → metaEqPair p p2 →
    List.Forall₂ metaEqPair (sortPairsInsert p l) (sortPairsInsert p2 l2) := by
  intro l l2 p p2 h hp
  induction h with
  | nil => exact List.Forall₂.cons hp List.Forall₂.nil
  | cons hq hrest ih =>
    rename_i q q2 qs qs2
    simp only [sortPairsInsert]
    rw [less_congr hp hq]
    by_cases hless : sortableNodeMapLess p2 q2 = true
    · rw [if_pos hless, if_pos hless]
      exact List.Forall₂.cons hp (List.Forall₂.cons hq hrest)
    · rw [if_neg hless, if_neg hless]
      exact List.Forall₂.cons hq ih

theorem sortPairs_congr {l l2 : List (YNode × YNode)}
    (h : List.Forall₂ metaEqPair l l2) :
    List.Forall₂ metaEqPair (sortPairs l) (sortPairs l2) := by
  have key : ∀ (l l2 : List (YNode × YNode)), List.Forall₂ metaEqPair l l2 →
      ∀ (acc acc2 : List (YNode × YNode)), List.Forall₂ metaEqPair acc acc2 →
      List.Forall₂ metaEqPair
        (l.foldl (fun acc p => sortPairsInsert p acc) acc)
        (l2.foldl (fun acc p => sortPairsInsert p acc) acc2) := by
    intro l l2 h
    induction h with
    | nil => intro acc acc2 ha; exact ha
    | cons hp hrest ih =>
      intro acc acc2 ha
      exact ih _ _ (sortPairsInsert_congr ha hp)
  exact key l l2 h [] [] List.Forall₂.nil

theorem flattenPairs_congr : ∀ {ps qs : List (YNode × YNode)},
    List.Forall₂ metaEqPair ps qs →
    List.Forall₂ (fun x y => metaEqB x y = true) (flattenPairs ps) (flattenPairs qs) := by
  intro ps qs h
  induction h with
  | nil => exact List.Forall₂.nil
  | cons hp hrest ih =>
    rename_i p p2 ps2 qs2
    cases p with
    | mk k v =>
      cases p2 with
      | mk k2 v2 =>
        simp only [flattenPairs]
        exact List.Forall₂.cons hp.1 (List.Forall₂.cons hp.2 ih)

theorem oddTail_congr : ∀ {c1 c2 : List YNode}, metaEqListB c1 c2 = true →
    List.Forall₂ (fun x y => metaEqB x y = true) (oddTail c1) (oddTail c2) := by
  intro c1
  induction c1 using toPairs.induct with
  | case1 k v rest ih =>
    intro c2 h
    cases c2 with
    | nil => simp [metaEqListB] at h
    | cons b bs =>
      cases bs with
      | nil =>
        simp only [metaEqListB, Bool.and_eq_true] at h
        simp [metaEqListB] at h
      | cons b2 bs2 =>
        simp only [metaEqListB, Bool.and_eq_true] at h
        simp only [oddTail]
        exact ih h.2.2
  | case2 l hnot =>
    intro c2 h
    cases l with
    | nil =>
      cases c2 with
      | nil => exact List.Forall₂.nil
      | cons b bs => simp [metaEqListB] at h
    | cons x xs =>
      cases xs with
      | nil =>
        cases c2 with
        | nil => simp [metaEqListB] at h
        | cons b bs =>
          cases bs with
          | nil =>
            simp only [metaEqListB, Bool.and_eq_true] at h
            simp only [oddTail]
            exact List.Forall₂.cons h.1 List.Forall₂.nil
          | cons b2 bs2 =>
            simp only [metaEqListB, Bool.and_eq_true] at h
            simp [metaEqListB] at h
      | cons y ys => exact absurd rfl (hnot x y ys)

theorem sortContent_congr {c1 c2 : List YNode} (h : metaEqListB c1 c2 = true) :
    List.Forall₂ (fun x y => metaEqB x y = true) (sortContent c1) (sortContent c2) := by
  unfold sortContent
  exact List.rel_append
    (flattenPairs_congr (sortPairs_congr (toPairs_forall2 h)))
    (oddTail_congr h)

theorem allZip_congr2 {p : YNode → YNode → Bool} {R : YNode → YNode → Prop}
    (hpt : ∀ x x2 y y2, R x x2 → R y y2 → p x y = p x2 y2) :
    ∀ {X X2 Y Y2 : List YNode}, List.Forall₂ R X X2 → List.Forall₂ R Y Y2 →
    allZip p X Y = allZip p X2 Y2 := by
  intro X X2 Y Y2 hX
  induction hX generalizing Y Y2 with
  | nil =>
    intro hY
    cases hY with
    | nil => rfl
    | cons h1 h2 => rfl
  | cons hx hrest ih =>
    intro hY
    cases hY with
    | nil => rfl
    | cons hy hys =>
      simp only [allZip]
      rw [hpt _ _ _ _ hx hy, ih hys]

theorem EqualF_metaEq : ∀ (fuel : Nat) (a b a2 b2 : YNode),
    metaEqB a a2 = true → metaEqB b b2 = true →
    EqualF fuel a b = EqualF fuel a2 b2 := by
  intro fuel
  induction fuel with
  | zero => intro a b a2 b2 _ _; rfl
  | succ g ih =>
    intro a b a2 b2 ha hb
    have hA := metaEq_Indirect (msize a) a a2 le_rfl ha
    have hB := metaEq_Indirect (msize b) b b2 le_rfl hb
    obtain ⟨hAk, hAt, hAv, _, _, hAl⟩ := metaEqB_parts hA
    obtain ⟨hBk, hBt, hBv, _, _, hBl⟩ := metaEqB_parts hB
    have hAlen := metaEqListB_length hAl
    have hBlen := metaEqListB_length hBl
    simp only [EqualF, hAk, hAt, hAv, hAlen, hBk, hBt, hBv, hBlen]
    split_ifs
    · rfl
    · rfl
    · rfl
    · rfl
    · exact allZip_congr2 (fun x x2 y y2 hx hy => ih x y x2 y2 hx hy)
        (sortContent_congr hAl) (sortContent_congr hBl)
    · exact allZip_congr2 (fun x x2 y y2 hx hy => ih x y x2 y2 hx hy)
        (metaEqListB_forall2.mp hAl) (metaEqListB_forall2.mp hBl)

theorem Equal_metaEq {a b a2 b2 : YNode}
    (ha : metaEqB a a2 = true) (hb : metaEqB b b2 = true) :
    Equal a b = Equal a2 b2 := by
  unfold Equal
  rw [EqualF_metaEq (msize a) a b a2 b2 ha hb,
      metaEq_msize (msize a) a a2 le_rfl ha]

/-! ## C5 : structural equality (corrected) -/

/-- C5 counterexample: `c5A` and `c5B` are Mapping nodes with
identical Kind, Tag and Value whose key/value pairs are the same up to
reordering — the keys { x : "1" } and { x : "2" } are distinct but
equivalent under sortableNodeMap.Less (same kind, tag, content length
and Value ""), so sorting cannot align the pairs and Equal compares
{ x : "1" } against { x : "2" }, returning false where the claim says
true. -/
theorem equal_reorder_counterexample :
    c5A.kind = c5B.kind ∧ c5A.tag = c5B.tag ∧ c5A.value = c5B.value ∧
    c5A.kind = YKind.mapping ∧
    List.Perm (toPairs c5A.content) (toPairs c5B.content) ∧
    Equal c5A c5B = false := by
  refine ⟨rfl, rfl, rfl, rfl, ?_, rfl⟩
  show List.Perm [(c5K1, scalarN "a"), (c5K2, scalarN "b")]
    [(c5K2, scalarN "b"), (c5K1, scalarN "a")]
  exact List.Perm.swap (c5K2, scalarN "b") (c5K1, scalarN "a") []

/-- C5 amended: (1) two Mapping nodes with identical Kind, Tag and
Value containing the same key/value pairs up to reordering compare
Equal, provided no two keys are equivalent under the
sortableNodeMap.Less ordering (the counterexample shows the proviso is
necessary); (2) for Sequence nodes Equal true forces pointwise equal
children (order significant); (3) formatting metadata (style,
comments, line, column), anywhere in either tree, never affects the
result. -/
theorem equal_structural (a b : YNode) :
    (a.kind = .mapping → b.kind = .mapping → a.tag = b.tag → a.value = b.value →
      a.content.length % 2 = 0 → b.content.length % 2 = 0 →
      List.Perm (toPairs a.content) (toPairs b.content) →
      List.Pairwise keysDistinct (toPairs a.content) →
      Equal a b = true) ∧
    (a.kind = .sequence → b.kind = .sequence → Equal a b = true →
      a.content.length = b.content.length ∧
      ∀ (i : Nat) (x y : YNode), a.content[i]? = some x → b.content[i]? = some y →
        Equal x y = true) ∧
    (∀ a2 b2 : YNode, metaEqB a a2 = true → metaEqB b b2 = true →
      Equal a b = Equal a2 b2) := by
  refine ⟨?_, ?_, fun a2 b2 h1 h2 => Equal_metaEq h1 h2⟩
  · intro hka hkb htag hv hea heb hperm hdist
    have hia : Indirect a = a := Indirect_eq_self (by rw [hka]; simp)
    have hib : Indirect b = b := Indirect_eq_self (by rw [hkb]; simp)
    have hlen : a.content.length = b.content.length := by
      rw [toPairs_length_even hea, toPairs_length_even heb, hperm.length_eq]
    have hS : sortPairs (toPairs a.content) = sortPairs (toPairs b.content) := by
      apply sorted_distinct_perm_eq
      · exact (sortPairs_perm _).trans (hperm.trans (sortPairs_perm _).symm)
      · exact sortPairs_sorted _
      · exact sortPairs_sorted _
      · exact (List.Perm.pairwise_iff (fun h => keysDistinct_symm h)
          (sortPairs_perm (toPairs a.content))).mpr hdist
    have hsc : sortContent a.content = sortContent b.content := by
      unfold sortContent
      rw [hS, oddTail_nil_of_even hea, oddTail_nil_of_even heb]
    unfold Equal
    obtain ⟨g, hg⟩ : ∃ g, msize a = g + 1 := ⟨msize a - 1, by have := msize_pos a; omega⟩
    rw [hg]
    simp only [EqualF, hia, hib]
    rw [if_neg (by simp [hka, hkb]), if_neg (by simp [htag]), if_neg (by simp [hv]),
        if_neg (by simp [hlen]), if_pos hka, ← hsc]
    refine allZip_refl ?_
    intro x hx
    have hx2 : x ∈ a.content := mem_of_mem_sortContent hx
    have h1 := msize_mem_le hx2
    have h2 : msizeList a.content ≤ g := by
      have h3 := msizeList_lt_msize a
      omega
    exact EqualF_refl_aux (msize x) x le_rfl g (by omega)
  · intro hka hkb hEq
    have hia : Indirect a = a := Indirect_eq_self (by rw [hka]; simp)
    have hib : Indirect b = b := Indirect_eq_self (by rw [hkb]; simp)
    unfold Equal at hEq
    obtain ⟨g, hg⟩ : ∃ g, msize a = g + 1 := ⟨msize a - 1, by have := msize_pos a; omega⟩
    rw [hg] at hEq
    simp only [EqualF, hia, hib] at hEq
    rw [if_neg (by simp [hka, hkb])] at hEq
    by_cases htag : a.tag = b.tag
    · rw [if_neg (by simp [htag])] at hEq
      by_cases hv : a.value = b.value
      · rw [if_neg (by simp [hv])] at hEq
        by_cases hlen : a.content.length = b.content.length
        · rw [if_neg (by simp [hlen])] at hEq
          rw [if_neg (by simp [hka])] at hEq
          have hget := allZip_get hEq
          refine ⟨hlen, ?_⟩
          intro i x y hx hy
          have hmem : x ∈ a.content := by
            have := List.getElem?_eq_some_iff.mp hx
            obtain ⟨hi, rfl⟩ := this
            exact List.getElem_mem hi
          have hb1 := msize_mem_le hmem
          have hres := hget.2 i x y hx hy
          have h2 : msizeList a.content ≤ g := by
            have h3 := msizeList_lt_msize a
            omega
          rw [EqualF_eq_Equal (by omega : msize x ≤ g)] at hres
          exact hres
        · rw [if_pos hlen] at hEq
          simp at hEq
      · rw [if_pos hv] at hEq
        simp at hEq
    · rw [if_pos htag] at hEq
      simp at hEq

theorem equal_structural_witness :
    Equal (mapN [scalarN "a", scalarN "1", scalarN "b", scalarN "2"])
          (mapN [scalarN "b", scalarN "2", scalarN "a", scalarN "1"]) = true ∧
    ((seqN [scalarN "3"]).content.length = (seqN [scalarN "3"]).content.length ∧
      ∀ (i : Nat) (x y : YNode), (seqN [scalarN "3"]).content[i]? = some x →
        (seqN [scalarN "3"]).content[i]? = some y → Equal x y = true) ∧
    Equal (scalarN "v") (scalarN "w") =
      Equal (⟨.scalar, 5, "!!str", "v", "", none, [], "hc", "lc", "fc", 9, 9⟩ : YNode)
            (⟨.scalar, 7, "!!str", "w", "", none, [], "x", "y", "z", 1, 2⟩ : YNode) := by
  refine ⟨?_, ?_, ?_⟩
  · refine (equal_structural _ _).1 rfl rfl rfl rfl (by decide) (by decide) ?_ ?_
    · show List.Perm [(scalarN "a", scalarN "1"), (scalarN "b", scalarN "2")]
        [(scalarN "b", scalarN "2"), (scalarN "a", scalarN "1")]
      exact List.Perm.swap (scalarN "b", scalarN "2") (scalarN "a", scalarN "1") []
    · show List.Pairwise keysDistinct [(scalarN "a", scalarN "1"), (scalarN "b", scalarN "2")]
      refine List.Pairwise.cons ?_ (List.pairwise_singleton _ _)
      intro q hq
      rw [List.mem_singleton.mp hq]
      exact Or.inl rfl
  · exact (equal_structural (seqN [scalarN "3"]) (seqN [scalarN "3"])).2.1 rfl rfl (by rfl)
  · exact (equal_structural (scalarN "v") (scalarN "w")).2.2 _ _ rfl rfl

/-! ## C6 : CopyNode round trip and independence -/

theorem hext_refl (H : List HNode) : HExt H H :=
  ⟨[], by simp⟩

theorem hext_trans {H1 H2 H3 : List HNode} (h1 : HExt H1 H2) (h2 : HExt H2 H3) :
    HExt H1 H3 := by
  obtain ⟨e1, rfl⟩ := h1
  obtain ⟨e2, rfl⟩ := h2
  exact ⟨e1 ++ e2, by simp⟩

theorem hext_length {H1 H2 : List HNode} (h : HExt H1 H2) : H1.length ≤ H2.length := by
  obtain ⟨e, rfl⟩ := h
  simp

theorem hext_getElem {H1 H2 : List HNode} (h : HExt H1 H2) {i : Nat}
    (hi : i < H1.length) : H2[i]? = H1[i]? := by
  obtain ⟨e, rfl⟩ := h
  exact List.getElem?_append_left hi

theorem mem_of_getElem?_heap {H : List HNode} {i : Nat} {hn : HNode}
    (h : H[i]? = some hn) : hn ∈ H := by
  obtain ⟨hi, rfl⟩ := List.getElem?_eq_some_iff.mp h
  exact List.getElem_mem hi

theorem lt_length_of_getElem?_heap {H : List HNode} {i : Nat} {hn : HNode}
    (h : H[i]? = some hn) : i < H.length :=
  (List.getElem?_eq_some_iff.mp h).1

theorem closed_edge {H : List HNode} (hc : ClosedHeapB H = true) {i : Nat} {hn : HNode}
    (hg : H[i]? = some hn) {e : Nat} (he : e ∈ heapEdges hn) : e < H.length := by
  rw [ClosedHeapB, List.all_eq_true] at hc
  have h1 := hc hn (mem_of_getElem?_heap hg)
  rw [List.all_eq_true] at h1
  have h2 := h1 e he
  simpa using h2

theorem getD_of_getElem?_heap {H : List HNode} {i : Nat} {hn : HNode}
    (h : H[i]? = some hn) : H.getD i default = hn := by
  rw [List.getD_eq_getElem?_getD, h]
  rfl

theorem rank_edge {H : List HNode} {rank : Nat → Nat} (hr : RankedHeap H rank)
    {i : Nat} {hn : HNode} (hg : H[i]? = some hn) {e : Nat}
    (he : e ∈ heapEdges hn) : rank e < rank i := by
  have hi := lt_length_of_getElem?_heap hg
  have h2 := (hr i hi).2 e
  rw [getD_of_getElem?_heap hg] at h2
  exact h2 he

theorem rank_bound {H : List HNode} {rank : Nat → Nat} (hr : RankedHeap H rank)
    {i : Nat} (hi : i < H.length) : rank i < H.length :=
  (hr i hi).1

theorem content_edge {hn : HNode} {e : Nat} (he : e ∈ hn.content) :
    e ∈ heapEdges hn := by
  rw [heapEdges]
  exact List.mem_append_left _ he

theorem alias_edge {hn : HNode} {e : Nat} (he : hn.aliasAddr = some e) :
    e ∈ heapEdges hn := by
  rw [heapEdges, he]
  exact List.mem_append_right _ (List.mem_singleton.mpr rfl)

theorem memoFind_mem {memo : List (Nat × Nat)} {a c : Nat}
    (h : memoFind memo a = some c) : (a, c) ∈ memo := by
  rw [memoFind] at h
  cases hf : memo.find? (fun p => p.1 = a) with
  | none => rw [hf] at h; simp at h
  | some p =>
    rw [hf] at h
    have h2 : p.2 = c := by simpa using h
    have hm := List.mem_of_find?_eq_some hf
    have hp := List.find?_some hf
    have hp1 : p.1 = a := by simpa using hp
    have : p = (a, c) := by
      cases p
      cases h2
      cases hp1
      rfl
    rw [← this]
    exact hm

theorem treeAt_some_ext (H1 e : List HNode) : ∀ (G a : Nat) (t : YNode),
    treeAt G H1 a = some t → treeAt G (H1 ++ e) a = some t := by
  intro G
  induction G with
  | zero => intro a t h; simp [treeAt] at h
  | succ G ih =>
    have hlist : ∀ (as : List Nat) (ts : List YNode),
        treeListGo (treeAt G H1) as = some ts →
        treeListGo (treeAt G (H1 ++ e)) as = some ts := by
      intro as
      induction as with
      | nil => intro ts h; simpa [treeListGo] using h
      | cons a rest ihl =>
        intro ts h
        simp only [treeListGo] at h ⊢
        cases h1 : treeAt G H1 a with
        | none => rw [h1] at h; simp at h
        | some t0 =>
          rw [h1] at h
          dsimp only at h
          cases h2 : treeListGo (treeAt G H1) rest with
          | none => rw [h2] at h; simp at h
          | some ts2 =>
            rw [h2] at h
            rw [ih a t0 h1, ihl ts2 h2]
            exact h
    intro a t h
    simp only [treeAt] at h ⊢
    cases hread : H1[a]? with
    | none => rw [hread] at h; simp at h
    | some hn =>
      have hread2 : (H1 ++ e)[a]? = some hn := by
        rw [List.getElem?_append_left (lt_length_of_getElem?_heap hread), hread]
      rw [hread] at h
      rw [hread2]
      dsimp only at h ⊢
      cases hal : hn.aliasAddr with
      | none =>
        rw [hal] at h
        dsimp only at h ⊢
        cases h3 : treeListGo (treeAt G H1) hn.content with
        | none => rw [h3] at h; simp at h
        | some cs =>
          rw [h3] at h
          rw [hlist hn.content cs h3]
          exact h
      | some ta =>
        rw [hal] at h
        dsimp only at h ⊢
        cases h4 : treeAt G H1 ta with
        | none => rw [h4] at h; simp at h
        | some tt =>
          rw [h4] at h
          dsimp only at h
          rw [ih ta tt h4]
          dsimp only
          cases h3 : treeListGo (treeAt G H1) hn.content with
          | none => rw [h3] at h; simp at h
          | some cs =>
            rw [h3] at h
            rw [hlist hn.content cs h3]
            exact h

theorem mem_ownedListGo {go : Nat → List Nat} {x : Nat} :
    ∀ {as : List Nat}, x ∈ ownedListGo go as ↔ ∃ a ∈ as, x ∈ go a := by
  intro as
  induction as with
  | nil => simp [ownedListGo]
  | cons a rest ih =>
    simp only [ownedListGo, List.mem_append, ih, List.mem_cons]
    constructor
    · rintro (h | ⟨b, hb, hx⟩)
      · exact ⟨a, Or.inl rfl, h⟩
      · exact ⟨b, Or.inr hb, hx⟩
    · rintro ⟨b, hb | hb, hx⟩
      · rw [hb] at hx; exact Or.inl hx
      · exact Or.inr ⟨b, hb, hx⟩

theorem self_mem_ownedAddrs (H : List HNode) : ∀ (G a : Nat), a ∈ ownedAddrs G H a := by
  intro G a
  cases G with
  | zero => simp [ownedAddrs]
  | succ G => simp [ownedAddrs]

theorem ownedAddrs_ext (H1 e : List HNode) : ∀ (G c : Nat),
    (∀ x, x ∈ ownedAddrs G H1 c → x < H1.length) →
    ownedAddrs G (H1 ++ e) c = ownedAddrs G H1 c := by
  intro G
  induction G with
  | zero => intro c _; simp [ownedAddrs]
  | succ G ih =>
    intro c hb
    have hc : c < H1.length := hb c (self_mem_ownedAddrs H1 (G + 1) c)
    simp only [ownedAddrs]
    rw [List.getElem?_append_left hc]
    cases hread : H1[c]? with
    | none => rfl
    | some hn =>
      have hsub : ∀ a ∈ hn.content, ∀ x ∈ ownedAddrs G H1 a, x < H1.length := by
        intro a ha x hx
        refine hb x ?_
        simp only [ownedAddrs, hread, List.mem_cons]
        exact Or.inr (mem_ownedListGo.mpr ⟨a, ha, hx⟩)
      have hll : ∀ (as : List Nat), (∀ a ∈ as, ∀ x ∈ ownedAddrs G H1 a, x < H1.length) →
          ownedListGo (ownedAddrs G (H1 ++ e)) as = ownedListGo (ownedAddrs G H1) as := by
        intro as
        induction as with
        | nil => intro _; rfl
        | cons a rest ihl =>
          intro hall
          simp only [ownedListGo]
          rw [ih a (hall a (List.mem_cons_self a rest)),
              ihl (fun b hb2 => hall b (List.mem_cons_of_mem a hb2))]
      dsimp only
      rw [hll hn.content hsub]

theorem GoodCopy_ext {H H1 e : List HNode} {s c : Nat} (h : GoodCopy H H1 s c) :
    GoodCopy H (H1 ++ e) s c := by
  obtain ⟨h1, h2, h3, h4⟩ := h
  refine ⟨h1, by simp; omega, ?_, ?_⟩
  · intro G t ht
    exact treeAt_some_ext H1 e G c t (h3 G t ht)
  · intro G x hx
    rw [ownedAddrs_ext H1 e G c (fun y hy => (h4 G y hy).2)] at hx
    have := (h4 G x hx)
    simp
    omega

theorem MemoOK_ext {H H1 e : List HNode} {memo : List (Nat × Nat)}
    (h : MemoOK H H1 memo) : MemoOK H (H1 ++ e) memo := by
  intro p hp
  exact ⟨(h p hp).1, GoodCopy_ext (h p hp).2⟩

theorem MemoOK_hext {H H1 H2 : List HNode} {memo : List (Nat × Nat)}
    (h : MemoOK H H1 memo) (he : HExt H1 H2) : MemoOK H H2 memo := by
  obtain ⟨e, rfl⟩ := he
  exact MemoOK_ext h

theorem GoodCopy_hext {H H1 H2 : List HNode} {s c : Nat} (h : GoodCopy H H1 s c)
    (he : HExt H1 H2) : GoodCopy H H2 s c := by
  obtain ⟨e, rfl⟩ := he
  exact GoodCopy_ext h

theorem treeAt_total {H : List HNode} {rank : Nat → Nat}
    (hc : ClosedHeapB H = true) (hr : RankedHeap H rank) :
    ∀ (fuel a : Nat), a < H.length → rank a < fuel → ∃ t, treeAt fuel H a = some t := by
  intro fuel
  induction fuel with
  | zero => intro a _ h; omega
  | succ G ih =>
    intro a ha hf
    obtain ⟨hn, hread⟩ : ∃ hn, H[a]? = some hn := ⟨H[a], List.getElem?_eq_getElem ha⟩
    have hchild : ∀ e, e ∈ heapEdges hn → ∃ t, treeAt G H e = some t := by
      intro e he
      refine ih e (closed_edge hc hread he) ?_
      have := rank_edge hr hread he
      omega
    have hlist : ∀ as : List Nat, (∀ e ∈ as, ∃ t, treeAt G H e = some t) →
        ∃ ts, treeListGo (treeAt G H) as = some ts := by
      intro as
      induction as with
      | nil => intro _; exact ⟨[], rfl⟩
      | cons b rest ihl =>
        intro hall
        obtain ⟨t0, ht0⟩ := hall b (List.mem_cons_self b rest)
        obtain ⟨ts, hts⟩ := ihl (fun x hx => hall x (List.mem_cons_of_mem b hx))
        exact ⟨t0 :: ts, by simp only [treeListGo, ht0, hts]⟩
    obtain ⟨cs, hcs⟩ := hlist hn.content (fun e he => hchild e (content_edge he))
    cases hal : hn.aliasAddr with
    | none =>
      exact ⟨⟨hn.kind, hn.style, hn.tag, hn.value, hn.anchor, none, cs,
          hn.headComment, hn.lineComment, hn.footComment, hn.line, hn.column⟩,
        by simp only [treeAt, hread, hal, hcs]⟩
    | some ta =>
      obtain ⟨tt, htt⟩ := hchild ta (alias_edge hal)
      exact ⟨⟨hn.kind, hn.style, hn.tag, hn.value, hn.anchor, some tt, cs,
          hn.headComment, hn.lineComment, hn.footComment, hn.line, hn.column⟩,
        by simp only [treeAt, hread, hal, htt, hcs]⟩

theorem treeAt_agree {H H3 : List HNode} (hc : ClosedHeapB H = true)
    (hag : ∀ i, i < H.length → H3[i]? = H[i]?) :
    ∀ (G a : Nat), a < H.length → treeAt G H3 a = treeAt G H a := by
  intro G
  induction G with
  | zero => intro a _; rfl
  | succ G ih =>
    intro a ha
    simp only [treeAt]
    rw [hag a ha]
    cases hread : H[a]? with
    | none => rfl
    | some hn =>
      dsimp only
      have hched : ∀ e ∈ heapEdges hn, e < H.length := fun e he => closed_edge hc hread he
      have hlist : ∀ as : List Nat, (∀ e ∈ as, e < H.length) →
          treeListGo (treeAt G H3) as = treeListGo (treeAt G H) as := by
        intro as
        induction as with
        | nil => intro _; rfl
        | cons b rest ihl =>
          intro hall
          simp only [treeListGo]
          rw [ih b (hall b (List.mem_cons_self b rest)),
              ihl (fun x hx => hall x (List.mem_cons_of_mem b hx))]
      cases hal : hn.aliasAddr with
      | none =>
        dsimp only
        rw [hlist hn.content (fun e he => hched e (content_edge he))]
      | some ta =>
        dsimp only
        rw [ih ta (hched ta (alias_edge hal)),
            hlist hn.content (fun e he => hched e (content_edge he))]

theorem treeListGo_map {f g : Nat → Option YNode} :
    ∀ (as cs : List Nat), as.length = cs.length →
    (∀ (i a c : Nat), as[i]? = some a → cs[i]? = some c →
      ∀ t, f a = some t → g c = some t) →
    ∀ ts, treeListGo f as = some ts → treeListGo g cs = some ts := by
  intro as
  induction as with
  | nil =>
    intro cs hlen _ ts h
    cases cs with
    | nil => exact h
    | cons c cs2 => simp at hlen
  | cons a rest ih =>
    intro cs hlen htr ts h
    cases cs with
    | nil => simp at hlen
    | cons c cs2 =>
      simp only [treeListGo] at h ⊢
      cases h1 : f a with
      | none => rw [h1] at h; simp at h
      | some t0 =>
        rw [h1] at h
        dsimp only at h
        cases h2 : treeListGo f rest with
        | none => rw [h2] at h; simp at h
        | some ts2 =>
          rw [h2] at h
          dsimp only at h
          have hc0 := htr 0 a c (by simp) (by simp) t0 h1
          have hrest := ih cs2 (by simpa using hlen)
            (fun i a2 c2 ha2 hc2 => htr (i + 1) a2 c2 (by simpa using ha2) (by simpa using hc2))
            ts2 h2
          rw [hc0, hrest]
          exact h

theorem alloc_goodcopy {H H3 : List HNode} {src : Nat} {sn : HNode}
    {al2 : Option Nat} {cs2 : List Nat}
    (hext3 : HExt H H3)
    (hreadH : H[src]? = some sn)
    (halias : ∀ ta, sn.aliasAddr = some ta →
      ∃ a2, al2 = some a2 ∧ ∀ (G : Nat) (t : YNode), treeAt G H ta = some t →
        treeAt G (H3 ++ [{ sn with aliasAddr := al2, content := cs2 }]) a2 = some t)
    (halias0 : sn.aliasAddr = none → al2 = none)
    (hlen : cs2.length = sn.content.length)
    (hgoods : ∀ (i a c : Nat), sn.content[i]? = some a → cs2[i]? = some c →
      GoodCopy H H3 a c) :
    GoodCopy H (H3 ++ [{ sn with aliasAddr := al2, content := cs2 }]) src H3.length := by
  have hHle : H.length ≤ H3.length := hext_length hext3
  refine ⟨hHle, by simp, ?_, ?_⟩
  · intro G t ht
    cases G with
    | zero => simp [treeAt] at ht
    | succ G =>
      simp only [treeAt] at ht ⊢
      rw [hreadH] at ht
      dsimp only at ht
      rw [List.getElem?_concat_length]
      dsimp only
      cases hal : sn.aliasAddr with
      | none =>
        rw [hal] at ht
        dsimp only at ht
        have h0 : al2 = none := halias0 hal
        subst h0
        dsimp only
        cases h3 : treeListGo (treeAt G H) sn.content with
        | none => rw [h3] at ht; simp at ht
        | some cs =>
          rw [h3] at ht
          dsimp only at ht
          rw [treeListGo_map sn.content cs2 hlen.symm
            (fun i a c ha hcc t2 ht2 =>
              (GoodCopy_ext (hgoods i a c ha hcc)).2.2.1 G t2 ht2) cs h3]
          exact ht
      | some ta =>
        rw [hal] at ht
        dsimp only at ht
        obtain ⟨a2, ha2, htr⟩ := halias ta hal
        subst ha2
        dsimp only
        cases h4 : treeAt G H ta with
        | none => rw [h4] at ht; simp at ht
        | some tt =>
          rw [h4] at ht
          dsimp only at ht
          rw [htr G tt h4]
          dsimp only
          cases h3 : treeListGo (treeAt G H) sn.content with
          | none => rw [h3] at ht; simp at ht
          | some cs =>
            rw [h3] at ht
            dsimp only at ht
            rw [treeListGo_map sn.content cs2 hlen.symm
              (fun i a c ha hcc t2 ht2 =>
                (GoodCopy_ext (hgoods i a c ha hcc)).2.2.1 G t2 ht2) cs h3]
            exact ht
  · intro G x hx
    cases G with
    | zero =>
      simp only [ownedAddrs, List.mem_singleton] at hx
      subst hx
      exact ⟨hHle, by simp⟩
    | succ G =>
      simp only [ownedAddrs] at hx
      rw [List.getElem?_concat_length] at hx
      dsimp only at hx
      rcases List.mem_cons.mp hx with hx1 | hx2
      · subst hx1
        exact ⟨hHle, by simp⟩
      · obtain ⟨c, hcmem, hxc⟩ := mem_ownedListGo.mp hx2
        obtain ⟨i, hi, hieq⟩ := List.mem_iff_getElem.mp hcmem
        have hci : cs2[i]? = some c := by rw [List.getElem?_eq_getElem hi, hieq]
        have hib : i < sn.content.length := by omega
        have hai : sn.content[i]? = some sn.content[i] := List.getElem?_eq_getElem hib
        have hg := @GoodCopy_ext _ H3 [{ sn with aliasAddr := al2, content := cs2 }] _ _
          (hgoods i sn.content[i] c hai hci)
        exact hg.2.2.2 G x hxc

theorem copyNodeH_ok {H : List HNode} {rank : Nat → Nat}
    (hc : ClosedHeapB H = true) (hr : RankedHeap H rank) :
    ∀ (fuel : Nat) (memo : List (Nat × Nat)) (H1 : List HNode) (src : Nat),
      HExt H H1 → MemoOK H H1 memo → src < H.length → rank src < fuel →
      ∃ c H2 memo2, copyNodeH fuel memo H1 src = some (c, H2, memo2) ∧
        HExt H1 H2 ∧ MemoOK H H2 memo2 ∧ GoodCopy H H2 src c := by
  intro fuel
  induction fuel with
  | zero => intro memo H1 src _ _ _ h; omega
  | succ fuel ih =>
    intro memo H1 src hext hmemo hsrc hfr
    have hlist : ∀ (as : List Nat), (∀ a ∈ as, a < H.length ∧ rank a < fuel) →
        ∀ (memo1 : List (Nat × Nat)) (Hh : List HNode), HExt H Hh → MemoOK H Hh memo1 →
        ∃ cs H2 memo2, copyListGo (copyNodeH fuel) memo1 Hh as = some (cs, H2, memo2) ∧
          HExt Hh H2 ∧ MemoOK H H2 memo2 ∧ cs.length = as.length ∧
          ∀ (i a c : Nat), as[i]? = some a → cs[i]? = some c → GoodCopy H H2 a c := by
      intro as
      induction as with
      | nil =>
        intro _ memo1 Hh hexth hmemoh
        exact ⟨[], Hh, memo1, rfl, hext_refl Hh, hmemoh, rfl,
          by intro i a c ha; simp at ha⟩
      | cons a rest ihl =>
        intro hall memo1 Hh hexth hmemoh
        obtain ⟨ha1, ha2⟩ := hall a (List.mem_cons_self a rest)
        obtain ⟨c0, H2, memo2, hrun, hext2, hmemo2, hgood0⟩ :=
          ih memo1 Hh a hexth hmemoh ha1 ha2
        obtain ⟨cs, H3, memo3, hrun2, hext3, hmemo3, hlen2, hgoods⟩ :=
          ihl (fun b hb => hall b (List.mem_cons_of_mem a hb)) memo2 H2
            (hext_trans hexth hext2) hmemo2
        refine ⟨c0 :: cs, H3, memo3, ?_, hext_trans hext2 hext3, hmemo3, by simp [hlen2], ?_⟩
        · simp only [copyListGo, hrun, hrun2]
        · intro i b cb hb hcb
          cases i with
          | zero =>
            simp only [List.getElem?_cons_zero, Option.some.injEq] at hb hcb
            rw [← hb, ← hcb]
            exact GoodCopy_hext hgood0 hext3
          | succ j =>
            simp only [List.getElem?_cons_succ] at hb hcb
            exact hgoods j b cb hb hcb
    cases hm : memoFind memo src with
    | some c =>
      have hp := hmemo (src, c) (memoFind_mem hm)
      refine ⟨c, H1, memo, ?_, hext_refl H1, hmemo, hp.2⟩
      simp only [copyNodeH, hm]
    | none =>
      obtain ⟨sn, hreadH⟩ : ∃ sn, H[src]? = some sn := ⟨H[src], List.getElem?_eq_getElem hsrc⟩
      have hread1 : H1[src]? = some sn := by rw [hext_getElem hext hsrc, hreadH]
      have hcontent : ∀ a ∈ sn.content, a < H.length ∧ rank a < fuel := by
        intro a haa
        refine ⟨closed_edge hc hreadH (content_edge haa), ?_⟩
        have := rank_edge hr hreadH (content_edge haa)
        omega
      cases hal : sn.aliasAddr with
      | none =>
        obtain ⟨cs2, H3, memo3, hrunL, hext3, hmemo3, hlenL, hgoodL⟩ :=
          hlist sn.content hcontent memo H1 hext hmemo
        have hnew : GoodCopy H (H3 ++ [{ sn with aliasAddr := none, content := cs2 }])
            src H3.length := by
          refine alloc_goodcopy (hext_trans hext hext3) hreadH ?_ (fun _ => rfl) hlenL
            (fun i a c ha hcc => hgoodL i a c ha hcc)
          intro ta hta
          rw [hal] at hta
          cases hta
        refine ⟨H3.length, H3 ++ [{ sn with aliasAddr := none, content := cs2 }],
          (src, H3.length) :: memo3, ?_, ?_, ?_, hnew⟩
        · simp only [copyNodeH, hm, hread1, hal, hrunL]
        · exact hext_trans hext3 ⟨_, rfl⟩
        · intro p hp
          rcases List.mem_cons.mp hp with hp1 | hp2
          · subst hp1
            exact ⟨hsrc, hnew⟩
          · exact ⟨(hmemo3 p hp2).1, GoodCopy_ext (hmemo3 p hp2).2⟩
      | some ta =>
        have hta_lt : ta < H.length := closed_edge hc hreadH (alias_edge hal)
        have hta_rk : rank ta < fuel := by
          have := rank_edge hr hreadH (alias_edge hal)
          omega
        obtain ⟨a2, H2, memo2, hrunA, hext2, hmemo2, hgoodA⟩ :=
          ih memo H1 ta hext hmemo hta_lt hta_rk
        obtain ⟨cs2, H3, memo3, hrunL, hext3, hmemo3, hlenL, hgoodL⟩ :=
          hlist sn.content hcontent memo2 H2 (hext_trans hext hext2) hmemo2
        have hnew : GoodCopy H (H3 ++ [{ sn with aliasAddr := some a2, content := cs2 }])
            src H3.length := by
          refine alloc_goodcopy (hext_trans hext (hext_trans hext2 hext3)) hreadH ?_ ?_ hlenL
            (fun i a c ha hcc => hgoodL i a c ha hcc)
          · intro ta2 hta2
            rw [hal] at hta2
            cases hta2
            refine ⟨a2, rfl, ?_⟩
            intro G t ht
            exact (GoodCopy_hext hgoodA (hext_trans hext3 ⟨_, rfl⟩)).2.2.1 G t ht
          · intro h0
            rw [hal] at h0
            cases h0
        refine ⟨H3.length, H3 ++ [{ sn with aliasAddr := some a2, content := cs2 }],
          (src, H3.length) :: memo3, ?_, ?_, ?_, hnew⟩
        · simp only [copyNodeH, hm, hread1, hal, hrunA, hrunL]
        · exact hext_trans hext2 (hext_trans hext3 ⟨_, rfl⟩)
        · intro p hp
          rcases List.mem_cons.mp hp with hp1 | hp2
          · subst hp1
            exact ⟨hsrc, hnew⟩
          · exact ⟨(hmemo3 p hp2).1, GoodCopy_ext (hmemo3 p hp2).2⟩

/-- C6: for every closed acyclic heap and root address, CopyNode
succeeds, the heap only grows (the original nodes are untouched), the
tree read back from the copy is identical to the tree read from the
original — so Equal(copy, original) is Equal t t = true — and the copy
is fresh: every address its content spine owns lies outside the
original heap, hence mutating the copy's structure (which touches only
addresses at or above the original heap's length) never changes the
tree denoted by any original address. -/
theorem copyNode_roundtrip (H : List HNode) (r : Nat)
    (hclosed : ClosedHeapB H = true) (hacyc : AcyclicHeap H) (hr : r < H.length) :
    ∃ (c : Nat) (H2 : List HNode) (memo : List (Nat × Nat)) (t : YNode),
      CopyNode H r = some (c, H2, memo) ∧
      HExt H H2 ∧
      H.length ≤ c ∧
      treeAt H.length H r = some t ∧
      treeAt H.length H2 c = some t ∧
      Equal t t = true ∧
      (∀ (G x : Nat), x ∈ ownedAddrs G H2 c → H.length ≤ x) ∧
      (∀ (H3 : List HNode), (∀ i, i < H.length → H3[i]? = H[i]?) →
        ∀ (G a : Nat), a < H.length → treeAt G H3 a = treeAt G H a) := by
  obtain ⟨rank, hrank⟩ := hacyc
  have hrk : rank r < H.length := rank_bound hrank hr
  obtain ⟨c, H2, memo2, hrun, hext, hmemo, hgood⟩ :=
    copyNodeH_ok hclosed hrank (H.length + 1) [] H r (hext_refl H)
      (by intro p hp; simp at hp) hr (by omega)
  obtain ⟨t, ht⟩ := treeAt_total hclosed hrank H.length r hr hrk
  exact ⟨c, H2, memo2, t, hrun, hext, hgood.1, ht, hgood.2.2.1 H.length t ht,
    Equal_refl t,
    fun G x hx => (hgood.2.2.2 G x hx).1,
    fun H3 hag G a ha => treeAt_agree hclosed hag G a ha⟩

theorem copyNode_roundtrip_witness :
    ClosedHeapB c6Heap = true ∧ 0 < c6Heap.length ∧
    ∃ (c : Nat) (H2 : List HNode) (memo : List (Nat × Nat)) (t : YNode),
      CopyNode c6Heap 0 = some (c, H2, memo) ∧
      HExt c6Heap H2 ∧
      c6Heap.length ≤ c ∧
      treeAt c6Heap.length c6Heap 0 = some t ∧
      treeAt c6Heap.length H2 c = some t ∧
      Equal t t = true ∧
      (∀ (G x : Nat), x ∈ ownedAddrs G H2 c → c6Heap.length ≤ x) ∧
      (∀ (H3 : List HNode), (∀ i, i < c6Heap.length → H3[i]? = c6Heap[i]?) →
        ∀ (G a : Nat), a < c6Heap.length → treeAt G H3 a = treeAt G c6Heap a) :=
  ⟨rfl, by decide,
    copyNode_roundtrip c6Heap 0 rfl
      ⟨fun _ => 0, by
        intro i hi
        refine ⟨by simp [c6Heap], ?_⟩
        intro e he
        have hi0 : i = 0 := by simp [c6Heap] at hi; omega
        subst hi0
        simp [c6Heap, heapEdges] at he⟩
      (by decide)⟩

/-! ## C2 : breadth-first scalar collection -/

theorem wfB_of_mem : ∀ {l : List YNode}, wfListB l = true → ∀ {x : YNode}, x ∈ l → wfB x = true := by
  intro l
  induction l with
  | nil => intro _ x hx; simp at hx
  | cons c rest ih =>
    intro h x hx
    simp only [wfListB, Bool.and_eq_true] at h
    rcases List.mem_cons.mp hx with h1 | h2
    · rw [h1]; exact h.1
    · exact ih h.2 h2

theorem wfB_parts (n : YNode) (h : wfB n = true) :
    (n.kind = .mapping → n.content.length % 2 = 0) ∧ wfListB n.content = true := by
  cases n with
  | mk k st tg v a al c hc lc fc ln col =>
    simp only [wfB, Bool.and_eq_true, Bool.or_eq_true, decide_eq_true_eq] at h
    refine ⟨?_, h.2⟩
    intro hk
    rcases h.1.1.2 with h1 | h1
    · exact absurd hk (by simpa using h1)
    · simpa using h1

theorem mem_mapValues : ∀ (k : Nat) (l : List YNode), l.length ≤ k →
    ∀ {x : YNode}, x ∈ mapValues l → x ∈ l := by
  intro k
  induction k with
  | zero =>
    intro l hl x hx
    cases l with
    | nil => simp [mapValues] at hx
    | cons a b => simp at hl
  | succ k ih
  =>
    intro l hl x hx
    cases l with
    | nil => simp [mapValues] at hx
    | cons a l2 =>
      cases l2 with
      | nil => simp [mapValues] at hx
      | cons b rest =>
        simp only [mapValues, List.mem_cons] at hx
        rcases hx with h1 | h2
        · rw [h1]; exact List.mem_cons_of_mem _ (List.mem_cons_self _ _)
        · have := ih rest (by simp at hl; omega) h2
          exact List.mem_cons_of_mem _ (List.mem_cons_of_mem _ this)

theorem mapValues_eq_toPairs : ∀ (k : Nat) (l : List YNode), l.length ≤ k →
    (toPairs l).map Prod.snd = mapValues l := by
  intro k
  induction k with
  | zero =>
    intro l hl
    cases l with
    | nil => rfl
    | cons a b => simp at hl
  | succ k ih =>
    intro l hl
    cases l with
    | nil => rfl
    | cons a l2 =>
      cases l2 with
      | nil => rfl
      | cons b rest =>
        simp only [toPairs, mapValues, List.map_cons]
        rw [ih rest (by simp at hl; omega)]

theorem mem_childrenForWalk {n : YNode} {x : YNode} (hx : x ∈ childrenForWalk n) :
    x ∈ n.content := by
  rw [childrenForWalk] at hx
  by_cases hk : n.kind = .mapping
  · rw [if_pos hk] at hx
    exact mem_mapValues n.content.length n.content le_rfl hx
  · rwa [if_neg hk] at hx

theorem wfB_children {n : YNode} (h : wfB n = true) {x : YNode}
    (hx : x ∈ childrenForWalk n) : wfB x = true :=
  wfB_of_mem (wfB_parts n h).2 (mem_childrenForWalk hx)

theorem heightW_pos (n : YNode) : 1 ≤ heightW n := by
  cases n with
  | mk k st tg v a al c hc lc fc ln col => simp [heightW]

theorem heightW_mem_le {x : YNode} : ∀ {l : List YNode}, x ∈ l → heightW x ≤ heightListW l := by
  intro l
  induction l with
  | nil => intro h; simp at h
  | cons c rest ih =>
    intro h
    rcases List.mem_cons.mp h with h1 | h2
    · rw [h1]; simp [heightListW]
    · have := ih h2
      simp only [heightListW]
      omega

theorem heightW_children {n : YNode} {x : YNode} (hx : x ∈ childrenForWalk n) :
    heightW x < heightW n := by
  have h1 := heightW_mem_le (mem_childrenForWalk hx)
  cases n with
  | mk k st tg v a al c hc lc fc ln col =>
    simp only [heightW]
    simp only at h1
    omega

theorem msizeList_mapValues : ∀ (k : Nat) (l : List YNode), l.length ≤ k →
    msizeList (mapValues l) ≤ msizeList l := by
  intro k
  induction k with
  | zero =>
    intro l h
    cases l with
    | nil => simp [mapValues, msizeList]
    | cons a b => simp at h
  | succ k ih =>
    intro l h
    cases l with
    | nil => simp [mapValues, msizeList]
    | cons a l2 =>
      cases l2 with
      | nil => simp [mapValues, msizeList]
      | cons b rest =>
        have hr := ih rest (by simp at h; omega)
        simp only [mapValues, msizeList]
        omega

theorem msizeList_childrenForWalk_lt (n : YNode) :
    msizeList (childrenForWalk n) < msize n := by
  cases n with
  | mk k st tg v a al c hc lc fc ln col =>
    by_cases hk : k = .mapping
    · have hle := msizeList_mapValues c.length c le_rfl
      simp only [childrenForWalk, hk, msize, if_true]
      omega
    · have hne : msizeList (childrenForWalk (YNode.mk k st tg v a al c hc lc fc ln col)) =
          msizeList c := by
        simp [childrenForWalk, hk]
      simp only [hne, msize]
      omega

theorem dsize_nodes (q : List Deferred) : dsize q = msizeList (q.map Deferred.node) := by
  induction q with
  | nil => simp [dsize, msizeList]
  | cons d rest ih =>
    simp only [dsize, List.map_cons, List.sum_cons, msizeList] at *
    omega

theorem perm_swap3 {α : Type} (a b f : List α) :
    List.Perm (a ++ (b ++ f)) (b ++ (a ++ f)) := by
  have h := (@List.perm_append_comm _ a b).append_right f
  simpa [List.append_assoc] using h

theorem flatten_exchange {α β : Type} (f : α → List β) (cw : YNode → List α)
    (q : List YNode) :
    (q.map (fun n => ((cw n).map f).flatten)).flatten =
      (((q.map cw).flatten).map f).flatten := by
  induction q with
  | nil => rfl
  | cons n rest ih => simp [ih]

theorem dfsSpecPairs_eq : ∀ (k : Nat) (l : List YNode), l.length ≤ k →
    dfsSpecPairs l = ((mapValues l).map dfsSpec).flatten := by
  intro k
  induction k with
  | zero =>
    intro l hl
    cases l with
    | nil => rfl
    | cons a b => simp at hl
  | succ k ih =>
    intro l hl
    cases l with
    | nil => rfl
    | cons a l2 =>
      cases l2 with
      | nil => rfl
      | cons b rest =>
        simp only [dfsSpecPairs, mapValues, List.map_cons, List.flatten_cons]
        rw [ih rest (by simp at hl; omega)]

theorem dfsChildren_perm : ∀ (l : List YNode),
    List.Perm (dfsSpecChildren l)
      (l.filter (fun c => c.kind = .scalar) ++ (l.map dfsSpec).flatten) := by
  intro l
  induction l with
  | nil => simp [dfsSpecChildren]
  | cons c rest ih =>
    by_cases hc : c.kind = .scalar
    · simp only [dfsSpecChildren, if_pos hc, List.filter_cons, hc, decide_True,
        List.map_cons, List.flatten_cons, List.singleton_append, List.cons_append]
      refine List.Perm.cons c ?_
      refine ((ih.append_left (dfsSpec c)).trans ?_)
      simpa [List.append_assoc] using
        perm_swap3 (dfsSpec c) (rest.filter (fun c => c.kind = .scalar)) ((rest.map dfsSpec).flatten)
    · simp only [dfsSpecChildren, if_neg hc, List.filter_cons, hc, decide_False,
        List.map_cons, List.flatten_cons, List.nil_append]
      refine ((ih.append_left (dfsSpec c)).trans ?_)
      simpa [List.append_assoc] using
        perm_swap3 (dfsSpec c) (rest.filter (fun c => c.kind = .scalar)) ((rest.map dfsSpec).flatten)

theorem dfsSpec_perm_rowChildren (n : YNode) :
    List.Perm (dfsSpec n) (row n ++ ((childrenForWalk n).map dfsSpec).flatten) := by
  cases n with
  | mk k st tg v a al c hc lc fc ln col =>
    simp only [dfsSpec, row, childrenForWalk]
    by_cases hk : k = .mapping
    · rw [if_pos hk, if_pos hk, if_pos hk, dfsSpecPairs_eq c.length c le_rfl]
      simp
    · rw [if_neg hk, if_neg hk, if_neg hk]
      exact dfsChildren_perm c

theorem bfsAux_perm_dfs : ∀ (M : Nat) (q : List YNode), msizeList q ≤ M →
    List.Perm (bfsAux q) ((q.map dfsSpec).flatten) := by
  intro M
  induction M with
  | zero =>
    intro q hq
    cases q with
    | nil => simp [bfsAux]
    | cons n rest =>
      have := msize_pos n
      simp only [msizeList] at hq
      omega
  | succ M ih =>
    intro q hq
    cases q with
    | nil => simp [bfsAux]
    | cons n rest =>
      have hch := msizeList_childrenForWalk_lt n
      have happ := msizeList_append rest (childrenForWalk n)
      simp only [msizeList] at hq
      have h1 := ih (rest ++ childrenForWalk n) (by omega)
      have heq : ((rest ++ childrenForWalk n).map dfsSpec).flatten =
          (rest.map dfsSpec).flatten ++ ((childrenForWalk n).map dfsSpec).flatten := by
        simp
      rw [heq] at h1
      simp only [bfsAux, List.map_cons, List.flatten_cons]
      refine ((h1.append_left (row n)).trans ?_)
      refine (List.Perm.append_left (row n) List.perm_append_comm).trans ?_
      have h3 : row n ++ (((childrenForWalk n).map dfsSpec).flatten ++
            (rest.map dfsSpec).flatten) =
          (row n ++ ((childrenForWalk n).map dfsSpec).flatten) ++
            (rest.map dfsSpec).flatten := by
        simp [List.append_assoc]
      rw [h3]
      exact (dfsSpec_perm_rowChildren n).symm.append_right _

theorem bfsAux_append : ∀ (q r : List YNode),
    bfsAux (q ++ r) =
      (q.map row).flatten ++ bfsAux (r ++ (q.map childrenForWalk).flatten) := by
  intro q
  induction q with
  | nil => intro r; simp
  | cons n q2 ih =>
    intro r
    have h1 : (n :: q2) ++ r = n :: (q2 ++ r) := rfl
    rw [h1]
    simp only [bfsAux, List.map_cons, List.flatten_cons]
    rw [List.append_assoc q2 r (childrenForWalk n), ih (r ++ childrenForWalk n)]
    simp [List.append_assoc]

theorem bfsAux_levels : ∀ (K : Nat) (q : List YNode), (∀ n ∈ q, heightW n ≤ K) →
    bfsAux q = ((List.range K).map (fun d => (q.map (rowsAt d)).flatten)).flatten := by
  intro K
  induction K with
  | zero =>
    intro q hq
    cases q with
    | nil => simp [bfsAux]
    | cons n rest =>
      have h1 := hq n (List.mem_cons_self n rest)
      have h2 := heightW_pos n
      omega
  | succ K ih =>
    intro q hq
    have hstep : bfsAux q = (q.map row).flatten ++ bfsAux ((q.map childrenForWalk).flatten) := by
      have := bfsAux_append q []
      simpa using this
    have hsub : ∀ m ∈ (q.map childrenForWalk).flatten, heightW m ≤ K := by
      intro m hm
      obtain ⟨s, hs, hms⟩ := List.mem_flatten.mp hm
      obtain ⟨n, hn, rfl⟩ := List.mem_map.mp hs
      have h1 := heightW_children hms
      have h2 := hq n hn
      omega
    rw [hstep, ih ((q.map childrenForWalk).flatten) hsub]
    rw [List.range_succ_eq_map]
    simp only [List.map_cons, List.flatten_cons, List.map_map]
    have hzero : q.map (rowsAt 0) = q.map row :=
      List.map_congr_left (fun n _ => by simp [rowsAt])
    rw [hzero]
    have hlevels : (List.range K).map
        (fun d => (((q.map childrenForWalk).flatten).map (rowsAt d)).flatten) =
        (List.range K).map
          ((fun d => (q.map (rowsAt d)).flatten) ∘ Nat.succ) := by
      refine List.map_congr_left ?_
      intro d _
      simp only [Function.comp]
      have : q.map (rowsAt (d + 1)) =
          q.map (fun n => ((childrenForWalk n).map (rowsAt d)).flatten) :=
        List.map_congr_left (fun n _ => by simp [rowsAt])
      rw [this, flatten_exchange]
    rw [hlevels]

theorem svw_eval (cur n : YNode) (i : Int) (o : WalkOptions) (ho : o.matchStatus = none) :
    ScalarValuesWalker collectNode cur (some n) i o =
      some ⟨o.missStatus,
        if cur.kind = .scalar ∧ ¬ n.kind = .mapping then [cur] else [], none⟩ := by
  by_cases h1 : cur.kind = .scalar
  · by_cases h2 : n.kind = .mapping
    · simp [ScalarValuesWalker, h1, h2]
    · simp [ScalarValuesWalker, collectNode, WalkOptions.MatchStatus, ho, h1, h2]
  · simp [ScalarValuesWalker, h1]

theorem svwC_eval (cur n : YNode) (i : Int) (o : WalkOptions) (ho : o.matchStatus = none) :
    svwC cur (some n) i o =
      some ⟨o.missStatus,
        if cur.kind = .scalar ∧ ¬ n.kind = .mapping then [cur] else [], none⟩ :=
  svw_eval cur n i o ho

theorem walkItems_bfs_nonmap (n : YNode) (p : Option YNode) (d : Nat)
    (hnm : ¬ n.kind = .mapping) :
    ∀ (l : List YNode) (i : Int) (acc : List Deferred) (outAcc : List YNode),
    walkItems svwC optsB n p d l i acc outAcc =
      some ⟨.depthFirst, acc ++ l.map (fun c => ⟨c, p, d + 1⟩), none,
        outAcc ++ l.filter (fun c => c.kind = .scalar)⟩ := by
  intro l
  induction l with
  | nil =>
    intro i acc outAcc
    simp [walkItems]
  | cons c rest ih =>
    intro i acc outAcc
    simp only [walkItems]
    rw [svwC_eval c n i optsB rfl]
    dsimp only
    rw [show optsB.missStatus = WalkStatus.breadthFirst from rfl]
    rw [if_neg hnm]
    dsimp only
    rw [ih]
    by_cases hc : c.kind = .scalar
    · simp [hc, hnm, List.filter_cons]
    · simp [hc, List.filter_cons]

theorem walkItems_bfs_map (n : YNode) (p : Option YNode) (d : Nat)
    (hm : n.kind = .mapping) :
    ∀ (k : Nat) (l : List YNode), l.length ≤ k → l.length % 2 = 0 →
    ∀ (i : Int) (acc : List Deferred) (outAcc : List YNode),
    walkItems svwC optsB n p d l i acc outAcc =
      some ⟨.depthFirst, acc ++ (toPairs l).map (fun q => ⟨q.2, some q.1, d + 1⟩), none,
        outAcc⟩ := by
  intro k
  induction k with
  | zero =>
    intro l hl he i acc outAcc
    cases l with
    | nil => simp [walkItems, toPairs]
    | cons a b => simp at hl
  | succ k ih =>
    intro l hl he i acc outAcc
    cases l with
    | nil => simp [walkItems, toPairs]
    | cons c l2 =>
      cases l2 with
      | nil => simp at he
      | cons v rest =>
        simp only [walkItems]
        rw [svwC_eval c n i optsB rfl]
        dsimp only
        rw [show optsB.missStatus = WalkStatus.breadthFirst from rfl]
        have hcond : ¬ (c.kind = .scalar ∧ ¬ n.kind = .mapping) := fun hand => hand.2 hm
        rw [if_neg hcond, if_pos hm]
        dsimp only
        rw [ih rest (by simp at hl; omega) (by simp at he; omega)]
        simp [toPairs]

theorem walk_bfs (n : YNode) (p : Option YNode) (d : Nat) (hwf : wfB n = true) :
    walk svwC optsB n p d = some ⟨.depthFirst, bfsDefer n p d, none, row n⟩ := by
  cases n with
  | mk k st tg v a al c hc lc fc ln col =>
    simp only [walk]
    rw [if_neg (by simp [optsB])]
    by_cases hk : k = .mapping
    · have heven := (wfB_parts _ hwf).1 hk
      rw [walkItems_bfs_map _ p d hk c.length c le_rfl heven 0 [] []]
      simp only [bfsDefer, row]
      rw [if_pos hk, if_pos hk]
      simp
    · rw [walkItems_bfs_nonmap _ p d hk c 0 [] []]
      simp only [bfsDefer, row]
      rw [if_neg hk, if_neg hk]
      simp

theorem bfsDefer_nodes (n : YNode) (p : Option YNode) (d : Nat) :
    (bfsDefer n p d).map Deferred.node = childrenForWalk n := by
  by_cases hk : n.kind = .mapping
  · simp only [bfsDefer, childrenForWalk, if_pos hk, List.map_map]
    rw [← mapValues_eq_toPairs n.content.length n.content le_rfl]
    simp [Function.comp]
  · simp only [bfsDefer, childrenForWalk, if_neg hk, List.map_map]
    have : (Deferred.node ∘ fun c => (⟨c, p, d + 1⟩ : Deferred)) = id := by
      funext c
      rfl
    rw [this, List.map_id]

theorem runLater_bfs : ∀ (fuel : Nat) (q : List Deferred) (acc : List YNode),
    (∀ dd ∈ q, wfB dd.node = true) → dsize q < fuel →
    runLater svwC optsB fuel q acc =
      some (acc ++ bfsAux (q.map Deferred.node), none) := by
  intro fuel
  induction fuel with
  | zero => intro q acc _ h; omega
  | succ fuel ih =>
    intro q acc hq hs
    cases q with
    | nil => simp [runLater, bfsAux]
    | cons dd rest =>
      simp only [runLater]
      rw [walk_bfs dd.node dd.parent dd.depth (hq dd (List.mem_cons_self dd rest))]
      dsimp only
      have hwf2 : ∀ d2 ∈ rest ++ bfsDefer dd.node dd.parent dd.depth, wfB d2.node = true := by
        intro d2 hd2
        rcases List.mem_append.mp hd2 with h1 | h2
        · exact hq d2 (List.mem_cons_of_mem dd h1)
        · have hmm : d2.node ∈ (bfsDefer dd.node dd.parent dd.depth).map Deferred.node :=
            List.mem_map_of_mem _ h2
          rw [bfsDefer_nodes] at hmm
          exact wfB_children (hq dd (List.mem_cons_self dd rest)) hmm
      have hsz : dsize (rest ++ bfsDefer dd.node dd.parent dd.depth) < fuel := by
        have h2 := dsize_nodes (rest ++ bfsDefer dd.node dd.parent dd.depth)
        rw [List.map_append, bfsDefer_nodes] at h2
        have h3 := msizeList_append (rest.map Deferred.node) (childrenForWalk dd.node)
        have h4 := msizeList_childrenForWalk_lt dd.node
        have h5 := dsize_nodes rest
        have h6 : dsize (dd :: rest) = msize dd.node + dsize rest := by
          simp [dsize]
        omega
      rw [ih _ _ hwf2 hsz]
      rw [List.map_append, bfsDefer_nodes]
      have hmap : (dd :: rest).map Deferred.node = dd.node :: rest.map Deferred.node := rfl
      rw [hmap]
      simp only [bfsAux]
      simp [List.append_assoc]

theorem walk_dfs : ∀ (M : Nat) (n : YNode), msize n ≤ M → wfB n = true →
    ∀ (p : Option YNode) (d : Nat),
    walk svwC defaultWalkOptions n p d = some ⟨.depthFirst, [], none, dfsSpec n⟩ := by
  intro M
  induction M with
  | zero =>
    intro n hn
    have := msize_pos n
    omega
  | succ M ih =>
    intro n hn hwf p d
    have hparts := wfB_parts n hwf
    cases n with
    | mk k st tg v a al c hc lc fc ln col =>
      have hmemfacts : ∀ x ∈ c, wfB x = true ∧ msize x ≤ M := by
        intro x hx
        refine ⟨wfB_of_mem hparts.2 hx, ?_⟩
        have h1 := msize_mem_le hx
        have h2 := msizeList_lt_msize (YNode.mk k st tg v a al c hc lc fc ln col)
        dsimp only at h2
        omega
      by_cases hk : k = .mapping
      · have hpairs : ∀ (j : Nat) (l : List YNode), l.length ≤ j → l.length % 2 = 0 →
            (∀ x ∈ l, wfB x = true ∧ msize x ≤ M) →
            ∀ (i : Int) (acc : List Deferred) (outAcc : List YNode),
            walkItems svwC defaultWalkOptions (YNode.mk k st tg v a al c hc lc fc ln col)
                p d l i acc outAcc =
              some ⟨.depthFirst, acc, none, outAcc ++ dfsSpecPairs l⟩ := by
          intro j
          induction j with
          | zero =>
            intro l hl he hfacts i acc outAcc
            cases l with
            | nil => simp [walkItems, dfsSpecPairs]
            | cons a b => simp at hl
          | succ j ihj =>
            intro l hl he hfacts i acc outAcc
            cases l with
            | nil => simp [walkItems, dfsSpecPairs]
            | cons ky l2 =>
              cases l2 with
              | nil => simp at he
              | cons vv rest =>
                simp only [walkItems]
                rw [svwC_eval ky _ i defaultWalkOptions rfl]
                dsimp only
                rw [show defaultWalkOptions.missStatus = WalkStatus.depthFirst from rfl]
                have hcond : ¬ (ky.kind = .scalar ∧ ¬ k = .mapping) := fun hand => hand.2 hk
                rw [if_neg hcond, if_pos hk]
                dsimp only
                have hvv := hfacts vv (by simp)
                rw [ih vv hvv.2 hvv.1 (some ky) (d + 1)]
                dsimp only
                rw [ihj rest (by simp at hl; omega) (by simp at he; omega)
                  (fun x hx => hfacts x (by simp [hx]))]
                simp [dfsSpecPairs, List.append_assoc]
        simp only [walk]
        rw [if_neg (by simp [defaultWalkOptions])]
        rw [hpairs c.length c le_rfl (hparts.1 hk) hmemfacts 0 [] []]
        simp [dfsSpec, hk]
      · have hchild : ∀ (l : List YNode), (∀ x ∈ l, wfB x = true ∧ msize x ≤ M) →
            ∀ (i : Int) (acc : List Deferred) (outAcc : List YNode),
            walkItems svwC defaultWalkOptions (YNode.mk k st tg v a al c hc lc fc ln col)
                p d l i acc outAcc =
              some ⟨.depthFirst, acc, none, outAcc ++ dfsSpecChildren l⟩ := by
          intro l
          induction l with
          | nil =>
            intro _ i acc outAcc
            simp [walkItems, dfsSpecChildren]
          | cons x rest ihl =>
            intro hfacts i acc outAcc
            simp only [walkItems]
            rw [svwC_eval x _ i defaultWalkOptions rfl]
            dsimp only
            rw [show defaultWalkOptions.missStatus = WalkStatus.depthFirst from rfl]
            rw [if_neg hk]
            dsimp only
            have hx := hfacts x (by simp)
            rw [ih x hx.2 hx.1 p (d + 1)]
            dsimp only
            rw [ihl (fun y hy => hfacts y (by simp [hy]))]
            by_cases hxs : x.kind = .scalar
            · simp [dfsSpecChildren, hxs, hk, List.append_assoc]
            · simp [dfsSpecChildren, hxs, List.append_assoc]
        simp only [walk]
        rw [if_neg (by simp [defaultWalkOptions])]
        rw [hchild c hmemfacts 0 [] []]
        simp [dfsSpec, hk]

theorem Walk_bfs_eq (n : YNode) (hwf : wfB (unwrapDocument n) = true)
    (hk : ¬ (unwrapDocument n).kind = .scalar) :
    Walk n svwC [WithBreadthFirst] = some (bfsAux [unwrapDocument n], none) := by
  have hopts : ([WithBreadthFirst].foldl (fun o g => g o)
      (⟨.depthFirst, none, -1⟩ : WalkOptions)) = optsB := rfl
  have hroot : svwC (unwrapDocument n) none (-1) optsB =
      some ⟨.breadthFirst, [], none⟩ := by
    simp [svwC, ScalarValuesWalker, hk, optsB]
  have hwfq : ∀ dd ∈ bfsDefer (unwrapDocument n) none 0, wfB dd.node = true := by
    intro dd hdd
    have hmm : dd.node ∈ (bfsDefer (unwrapDocument n) none 0).map Deferred.node :=
      List.mem_map_of_mem _ hdd
    rw [bfsDefer_nodes] at hmm
    exact wfB_children hwf hmm
  have hone : bfsAux [unwrapDocument n] =
      row (unwrapDocument n) ++ bfsAux (childrenForWalk (unwrapDocument n)) := by
    simp only [bfsAux]
    simp
  simp only [Walk]
  rw [hopts, hroot]
  dsimp only
  rw [walk_bfs (unwrapDocument n) none 0 hwf]
  dsimp only
  rw [runLater_bfs _ _ _ hwfq (by omega)]
  rw [bfsDefer_nodes, hone]
  simp

theorem Walk_dfs_eq (n : YNode) (hwf : wfB (unwrapDocument n) = true)
    (hk : ¬ (unwrapDocument n).kind = .scalar) :
    Walk n svwC [] = some (dfsSpec (unwrapDocument n), none) := by
  have hopts : (([] : List WalkOpt).foldl (fun o g => g o)
      (⟨.depthFirst, none, -1⟩ : WalkOptions)) = defaultWalkOptions := rfl
  have hroot : svwC (unwrapDocument n) none (-1) defaultWalkOptions =
      some ⟨.depthFirst, [], none⟩ := by
    simp [svwC, ScalarValuesWalker, hk, defaultWalkOptions]
  simp only [Walk]
  rw [hopts, hroot]
  dsimp only
  rw [walk_dfs (msize (unwrapDocument n)) (unwrapDocument n) le_rfl hwf none 0]
  dsimp only
  simp [runLater]

/-- C2 counterexample: in { a : "x" } the scalar "x" is a scalar leaf
and not a mapping key (it is the value at Content index 1), yet both
the breadth-first and the default depth-first ScalarValuesWalker
traversals invoke the callback on nothing at all: inside a Mapping the
engine passes only the keys to the visit function and descends into
the values, so a scalar mapping value is never itself visited. -/
theorem bfs_misses_map_value :
    wfB c2Map = true ∧ c2Map.kind = .mapping ∧
    c2Map.content[1]? = some (scalarN "x") ∧ (scalarN "x").kind = .scalar ∧
    Walk c2Map svwC [WithBreadthFirst] = some ([], none) ∧
    Walk c2Map svwC [] = some ([], none) :=
  ⟨rfl, rfl, rfl, rfl, rfl, rfl⟩

/-- C2 (corrected): for a well-formed tree whose unwrapped root is not
itself a scalar, Walk with ScalarValuesWalker and WithBreadthFirst
collects exactly the scalars the engine reaches — the scalar children
of non-mapping nodes, NOT every scalar leaf (mapping values are
descended into but never visited, see the counterexample) — in strict
level order: the collected sequence is the concatenation, for depth
d = 0, 1, ..., of the reached scalars exactly d levels below the root
(`rowsAt d`), so every collected scalar at depth d precedes every one
at depth d + 1; the default depth-first traversal collects `dfsSpec`,
and the breadth-first sequence is a permutation of it. -/
theorem walk_scalar_bfs_dfs (n : YNode)
    (hwf : wfB (unwrapDocument n) = true)
    (hk : ¬ (unwrapDocument n).kind = .scalar) :
    Walk n svwC [WithBreadthFirst] =
      some (((List.range (heightW (unwrapDocument n))).map
        (fun d => rowsAt d (unwrapDocument n))).flatten, none) ∧
    Walk n svwC [] = some (dfsSpec (unwrapDocument n), none) ∧
    List.Perm
      (((List.range (heightW (unwrapDocument n))).map
        (fun d => rowsAt d (unwrapDocument n))).flatten)
      (dfsSpec (unwrapDocument n)) := by
  have hlev : bfsAux [unwrapDocument n] =
      ((List.range (heightW (unwrapDocument n))).map
        (fun d => rowsAt d (unwrapDocument n))).flatten := by
    have h1 := bfsAux_levels (heightW (unwrapDocument n)) [unwrapDocument n]
      (by intro m hm; rw [List.mem_singleton.mp hm])
    rw [h1]
    refine congrArg List.flatten (List.map_congr_left ?_)
    intro d _
    simp
  have hperm : List.Perm (bfsAux [unwrapDocument n]) (dfsSpec (unwrapDocument n)) := by
    have h2 := bfsAux_perm_dfs (msizeList [unwrapDocument n]) [unwrapDocument n] le_rfl
    simpa using h2
  refine ⟨?_, Walk_dfs_eq n hwf hk, ?_⟩
  · rw [Walk_bfs_eq n hwf hk, hlev]
  · rw [← hlev]
    exact hperm

theorem walk_scalar_bfs_dfs_witness :
    wfB (unwrapDocument c2Tree) = true ∧ ¬ (unwrapDocument c2Tree).kind = .scalar ∧
    (Walk c2Tree svwC [WithBreadthFirst] =
      some (((List.range (heightW (unwrapDocument c2Tree))).map
        (fun d => rowsAt d (unwrapDocument c2Tree))).flatten, none) ∧
     Walk c2Tree svwC [] = some (dfsSpec (unwrapDocument c2Tree), none) ∧
     List.Perm (((List.range (heightW (unwrapDocument c2Tree))).map
        (fun d => rowsAt d (unwrapDocument c2Tree))).flatten)
       (dfsSpec (unwrapDocument c2Tree))) :=
  ⟨rfl, by decide, walk_scalar_bfs_dfs c2Tree rfl (by decide)⟩
